import Mathlib

set_option maxRecDepth 8000

/-!
Verification of the idea-deduplication utility (`deduplicate_ideas.py`).

Python strings are modelled as `List Char` (sequences of Unicode code
points); Python `float` arithmetic is modelled exactly over `ℚ` (all the
values the program manipulates are short decimals, where the two agree);
machine-level rounding of the binary significand is outside the model.
A Python exception escaping a function is modelled by `Option`/`none`.
-/

/-- Python strings as lists of Unicode code points. -/
abbrev PyStr := List Char

/-- The rocket emoji removed by `normalize_idea_name`. -/
def rocketChar : Char := '🚀'

/-- Whitespace in the sense of `str.strip()` (restricted to the ASCII
whitespace characters, which are the only whitespace this data contains). -/
def isPySpace (c : Char) : Bool :=
  c = ' ' || c = '\t' || c = '\n' || c = '\r' || c = '\x0b' || c = '\x0c'

/-- Model of `str.strip()`: drop leading and trailing whitespace. -/
def pyStrip (s : PyStr) : PyStr :=
  ((s.dropWhile isPySpace).reverse.dropWhile isPySpace).reverse

/-- Model of `str.lower()` as a code-point map (exact on the ASCII-plus-emoji
alphabet this data ranges over): code points 65–90 shift to 97–122, the rest
stay fixed. -/
def lowerChar (c : Char) : Char :=
  if 65 ≤ c.toNat ∧ c.toNat ≤ 90 then Char.ofNat (c.toNat + 32) else c

/-- Lowercase a whole string. -/
def lowerStr (s : PyStr) : PyStr := s.map lowerChar

/-- Model of `name.replace('🚀', '')`: replacing every occurrence of a
one-character substring by the empty string removes exactly those characters. -/
def removeRocket (s : PyStr) : PyStr := s.filter (fun c => c ≠ rocketChar)

/-- Embedding of `normalize_idea_name`: remove the rocket emoji, strip
whitespace, lowercase. -/
def normalize_idea_name (s : PyStr) : PyStr :=
  lowerStr (pyStrip (removeRocket s))

/-- Does `t` start with `s`? (model of Python string prefix matching used to
define containment). -/
def startsW : PyStr → PyStr → Bool
  | _, [] => true
  | [], _ :: _ => false
  | c :: t, d :: s => c = d && startsW t s

/-- Model of Python `s in t` on strings: `s` occurs contiguously in `t`
(the empty string occurs in every string). -/
def containsSub : PyStr → PyStr → Bool
  | t, s => if startsW t s then true else
      match t with
      | [] => false
      | _ :: t' => containsSub t' s

/-- Length of the longest common prefix of two strings. -/
def commonPrefixLen : PyStr → PyStr → Nat
  | c :: t, d :: s => if c = d then commonPrefixLen t s + 1 else 0
  | _, _ => 0

/-- The match length starting at offsets `i` in `a` and `j` in `b`
(restricted to the windows `a[alo:ahi]`, `b[blo:bhi]`). -/
def matchLenAt (a b : PyStr) (ahi bhi i j : Nat) : Nat :=
  commonPrefixLen ((a.take ahi).drop i) ((b.take bhi).drop j)

/-- All candidate starting pairs `(i, j)` for a matching block inside the
windows, in the scan order of `difflib` (by `i`, then by `j`). -/
def candidatePairs (alo ahi blo bhi : Nat) : List (Nat × Nat) :=
  (List.range' alo (ahi - alo)).flatMap
    (fun i => (List.range' blo (bhi - blo)).map (fun j => (i, j)))

/-- Embedding of `SequenceMatcher.find_longest_match` (no junk, which is the
case for inputs shorter than 200 characters): the longest matching block,
earliest in `a` then in `b`. Returns `(i, j, size)`. -/
def findLongestMatch (a b : PyStr) (alo ahi blo bhi : Nat) : Nat × Nat × Nat :=
  (candidatePairs alo ahi blo bhi).foldl
    (fun best p =>
      let k := matchLenAt a b ahi bhi p.1 p.2
      if best.2.2 < k then (p.1, p.2, k) else best)
    (alo, blo, 0)

/-- Total size of all matching blocks (the `M` of `SequenceMatcher.ratio`),
computed by the recursive divide at the longest match, with fuel bounding the
recursion depth. -/
def matchTotal (a b : PyStr) : Nat → Nat → Nat → Nat → Nat → Nat
  | 0, _, _, _, _ => 0
  | fuel + 1, alo, ahi, blo, bhi =>
      let r := findLongestMatch a b alo ahi blo bhi
      let i := r.1
      let j := r.2.1
      let k := r.2.2
      if k = 0 then 0
      else matchTotal a b fuel alo i blo j + k + matchTotal a b fuel (i + k) ahi (j + k) bhi

/-- Embedding of the test `SequenceMatcher(None, a, b).ratio() >= 0.85`:
`2*M/(|a|+|b|) ≥ 85/100`, i.e. `40*M ≥ 17*(|a|+|b|)`, over exact rationals. -/
def ratioGe (a b : PyStr) : Bool :=
  let m := matchTotal a b (a.length + b.length + 1) 0 a.length 0 b.length
  17 * (a.length + b.length) ≤ 40 * m

/-- The substring branch of the similarity test (`norm1 in norm2 or norm2 in
norm1` in the source). -/
def substrRule (n1 n2 : PyStr) : Bool :=
  containsSub n2 n1 || containsSub n1 n2

/-- Embedding of `are_ideas_similar` at the default threshold `0.85`. -/
def are_ideas_similar (name1 name2 : PyStr) : Bool :=
  let n1 := normalize_idea_name name1
  let n2 := normalize_idea_name name2
  if n1 = n2 then true
  else if substrRule n1 n2 then true
  else ratioGe n1 n2

/-- Numeric value of an ASCII digit, `none` otherwise. -/
def digitVal (c : Char) : Option Nat :=
  if '0' ≤ c ∧ c ≤ '9' then some (c.toNat - 48) else none

/-- Split a string into its leading run of ASCII digits and the rest. -/
def takeDigits : PyStr → (List Nat × PyStr)
  | [] => ([], [])
  | c :: cs =>
      match digitVal c with
      | some d => let r := takeDigits cs; (d :: r.1, r.2)
      | none => ([], c :: cs)

/-- Natural number denoted by a digit list (most significant first). -/
def natOfDigits (ds : List Nat) : Nat := ds.foldl (fun a d => a * 10 + d) 0

/-- Consume an optional leading sign; returns (isNegative, rest). -/
def parseSign : PyStr → (Bool × PyStr)
  | '-' :: r => (true, r)
  | '+' :: r => (false, r)
  | r => (false, r)

/-- An exact fraction with explicitly represented numerator and denominator.
Used for all numeric values the program computes, so that every program-side
computation reduces in the kernel (`ℚ` arithmetic in this library is
irreducible); `Frac.toQ` is the bridge to `ℚ` used in specifications. All
fractions the program builds have positive denominator. -/
structure Frac where
  num : ℤ
  den : ℤ
deriving DecidableEq

/-- Rational value of a fraction. -/
def Frac.toQ (f : Frac) : ℚ := (f.num : ℚ) / (f.den : ℚ)

/-- Exact addition of fractions. -/
def Frac.add (a b : Frac) : Frac := ⟨a.num * b.den + b.num * a.den, a.den * b.den⟩

/-- Division of a fraction by a natural number. -/
def Frac.divNat (a : Frac) (n : ℕ) : Frac := ⟨a.num, a.den * (n : ℤ)⟩

/-- Comparison of fractions with positive denominators. -/
def Frac.leB (a b : Frac) : Bool := decide (a.num * b.den ≤ b.num * a.den)

/-- Parse the unsigned part of a Python float literal: digits, optional
fractional part, optional exponent; the whole input must be consumed. -/
def parseUnsigned (t : PyStr) : Option Frac :=
  let p1 := takeDigits t
  let p2 : List Nat × PyStr :=
    match p1.2 with
    | '.' :: r => takeDigits r
    | _ => ([], p1.2)
  if p1.1 = [] ∧ p2.1 = [] then none
  else
    let base : Frac := ⟨(natOfDigits (p1.1 ++ p2.1) : ℤ), ((10 : ℤ) ^ p2.1.length)⟩
    match p2.2 with
    | [] => some base
    | 'e' :: r3 =>
        let ps := parseSign r3
        let pd := takeDigits ps.2
        if pd.1 = [] ∨ pd.2 ≠ [] then none
        else some (if ps.1 then ⟨base.num, base.den * (10 : ℤ) ^ natOfDigits pd.1⟩
                   else ⟨base.num * (10 : ℤ) ^ natOfDigits pd.1, base.den⟩)
    | 'E' :: r3 =>
        let ps := parseSign r3
        let pd := takeDigits ps.2
        if pd.1 = [] ∨ pd.2 ≠ [] then none
        else some (if ps.1 then ⟨base.num, base.den * (10 : ℤ) ^ natOfDigits pd.1⟩
                   else ⟨base.num * (10 : ℤ) ^ natOfDigits pd.1, base.den⟩)
    | _ => none

/-- Embedding of Python `float(s)` on finite decimal/scientific literals,
returning the exact value; `none` models the `ValueError` raised on an
unparsable string. (The special literals `inf`/`nan` and PEP-515 underscores
are outside the model; no score data uses them.) -/
def pyFloat (s : PyStr) : Option Frac :=
  let t := pyStrip s
  let ps := parseSign t
  (parseUnsigned ps.2).map (fun f => if ps.1 then ⟨-f.num, f.den⟩ else f)

/-- ASCII digit character for a value below ten. -/
def digitChar (d : Nat) : Char := Char.ofNat (48 + d)

/-- Decimal digits of a natural number, most significant first, with fuel. -/
def natToStrAux : Nat → Nat → PyStr
  | 0, _ => []
  | fuel + 1, n => if n < 10 then [digitChar n] else natToStrAux fuel (n / 10) ++ [digitChar (n % 10)]

/-- Decimal string of a natural number (model of Python `str(n)`). -/
def natToStr (n : Nat) : PyStr := natToStrAux (n + 1) n

/-- Fraction digits of `num/den` (with `num < den`), up to `fuel` digits. -/
def fracDigits : Nat → Nat → Nat → PyStr
  | 0, _, _ => []
  | _, 0, _ => []
  | fuel + 1, num, den =>
      digitChar (num * 10 / den) :: fracDigits fuel (num * 10 % den) den

/-- Model of Python `str()` on a float with exact (terminating) decimal
value, given as a fraction with positive denominator: sign, integer part,
point, fraction digits (at least one). -/
def fmtFrac (f : Frac) : PyStr :=
  let sign : PyStr := if f.num < 0 then ['-'] else []
  let n := f.num.natAbs
  let d := f.den.natAbs
  sign ++ natToStr (n / d) ++ '.' ::
    (if n % d = 0 then ['0'] else fracDigits 17 (n % d) d)

/-- The value stored in the `Score` output field: `round(avg_score, 1)` is
the int `0` when no score was parsed (`round` of an int is an int), and
otherwise a float that is an exact multiple of one tenth, stored here by its
numerator over ten. The two stringify differently (`0` versus `0.0`). -/
inductive PyScore where
  | intg (n : ℤ)
  | tenths (k : ℤ)
deriving DecidableEq

/-- Numeric value of a stored score. -/
def PyScore.toQ : PyScore → ℚ
  | .intg n => (n : ℚ)
  | .tenths k => (k : ℚ) / 10

/-- Numeric value scaled by ten, as an integer (used for exact comparison). -/
def PyScore.times10 : PyScore → ℤ
  | .intg n => 10 * n
  | .tenths k => k

/-- Exact comparison of two stored scores (model of Python `<=` on the
numeric `Score` values). -/
def PyScore.leB (a b : PyScore) : Bool := decide (a.times10 ≤ b.times10)

/-- Model of Python `str()` on a `Score` value. -/
def PyScore.str : PyScore → PyStr
  | .intg n => (if n < 0 then ['-'] else []) ++ natToStr n.natAbs
  | .tenths k => fmtFrac ⟨k, 10⟩

/-- Floor-based round-half-to-even on rationals (specification-side model of
Python `round` on exact values): the floor, the floor plus one, or the even
neighbour on an exact half. -/
def rhe (q : ℚ) : ℤ :=
  if q - (⌊q⌋ : ℚ) < 1 / 2 then ⌊q⌋
  else if 1 / 2 < q - (⌊q⌋ : ℚ) then ⌊q⌋ + 1
  else if ⌊q⌋ % 2 = 0 then ⌊q⌋ else ⌊q⌋ + 1

/-- Specification-side model of Python `round(q, 1)` on exact values. -/
def pyRound1 (q : ℚ) : ℚ := ((rhe (q * 10) : ℤ) : ℚ) / 10

/-- Round-half-to-even of `n / d` for `d > 0`, computed on integers
(`Int.fdiv` is floor division). -/
def rheFrac (n d : ℤ) : ℤ :=
  if 2 * (n - Int.fdiv n d * d) < d then Int.fdiv n d
  else if d < 2 * (n - Int.fdiv n d * d) then Int.fdiv n d + 1
  else if Int.fdiv n d % 2 = 0 then Int.fdiv n d else Int.fdiv n d + 1

/-- Program-side `round(x, 1)`: the rounded value as a number of tenths. -/
def pyRound1F (a : Frac) : ℤ := rheFrac (10 * a.num) a.den

/-- An input row: each recognized CSV field either absent (`none`) or a
string. Model of the dicts produced by `csv.DictReader`. -/
structure Row where
  idea : Option PyStr
  score : Option PyStr
  freeVP : Option PyStr
  paidVP : Option PyStr
  why : Option PyStr
  llm : Option PyStr
deriving DecidableEq

/-- Python truthiness of `row.get(k)`: present and non-empty. -/
def truthy : Option PyStr → Bool
  | none => false
  | some s => !s.isEmpty

/-- One collected instance: source filename plus the row
(the dicts appended by the first pass of `consolidate_ideas`). -/
structure Inst where
  filename : PyStr
  row : Row
deriving DecidableEq

/-- The `Idea` value of a row (meaningful where `truthy row.idea`). -/
def rowIdea (r : Row) : PyStr := r.idea.getD []

/-- The rows of all files that carry a non-empty `Idea`, tagged with their
filename, in file order then row order (the iteration order of the first
pass of `consolidate_ideas`). -/
def truthyInsts (csvData : List (PyStr × List Row)) : List Inst :=
  csvData.flatMap
    (fun fr => (fr.2.filter (fun r => truthy r.idea)).map (fun r => ⟨fr.1, r⟩))

/-- Append one instance to the bucket of its idea name, creating the bucket
at the end on first sight (model of `defaultdict(list)` indexing, which keeps
keys in first-seen order). -/
def addInst (groups : List (PyStr × List Inst)) (name : PyStr) (i : Inst) :
    List (PyStr × List Inst) :=
  if groups.any (fun p => p.1 = name) then
    groups.map (fun p => if p.1 = name then (p.1, p.2 ++ [i]) else p)
  else groups ++ [(name, [i])]

/-- Embedding of the first pass of `consolidate_ideas`: `idea_groups`. -/
def ideaGroupsOf (csvData : List (PyStr × List Row)) : List (PyStr × List Inst) :=
  (truthyInsts csvData).foldl (fun g i => addInst g (rowIdea i.row) i) []

/-- The distinct idea names in first-observed order (`idea_names`). -/
def ideaNamesOf (csvData : List (PyStr × List Row)) : List PyStr :=
  (ideaGroupsOf csvData).map Prod.fst

/-- Embedding of the inner loop of the second pass: scan the names after the
seed, adding each not-yet-processed name similar to the seed and marking it
processed on the spot. Returns the matched names (in scan order) and the
final processed set. -/
def innerScan (seed : PyStr) : List PyStr → List PyStr → (List PyStr × List PyStr)
  | [], processed => ([], processed)
  | m :: rest, processed =>
      if m ∉ processed ∧ are_ideas_similar seed m then
        let r := innerScan seed rest (m :: processed)
        (m :: r.1, r.2)
      else innerScan seed rest processed

/-- Embedding of the outer loop of the second pass: each not-yet-processed
name opens a group seeded by itself; members are gathered by `innerScan`. -/
def outerScan : List PyStr → List PyStr → List (List PyStr)
  | [], _ => []
  | n :: rest, processed =>
      if n ∈ processed then outerScan rest processed
      else
        let r := innerScan n rest processed
        (n :: r.1) :: outerScan rest (n :: r.2)

/-- The similarity groups of a run, in discovery order. -/
def groupsOf (csvData : List (PyStr × List Row)) : List (List PyStr) :=
  outerScan (ideaNamesOf csvData) []

/-- Strict lexicographic comparison of strings by code point
(model of Python `<` on `str`). -/
def strLtB : PyStr → PyStr → Bool
  | [], [] => false
  | [], _ :: _ => true
  | _ :: _, [] => false
  | c :: s, d :: t =>
      if c.toNat < d.toNat then true
      else if d.toNat < c.toNat then false
      else strLtB s t

/-- Strict comparison of the sort keys `(len(normalize_idea_name(x)), x)`
used by the canonical-name `min`. -/
def keyLtB (a b : PyStr) : Bool :=
  let la := (normalize_idea_name a).length
  let lb := (normalize_idea_name b).length
  if la < lb then true else if lb < la then false else strLtB a b

/-- Embedding of `min(similar_group, key=lambda x: (len(normalize_idea_name(x)), x))`:
Python `min` keeps the current element unless a strictly smaller key appears.
Total with default `[]`; `min` of the empty list raises, but every group
carries its seed. -/
def pyMinName : List PyStr → PyStr
  | [] => []
  | x :: xs => xs.foldl (fun cur m => if keyLtB m cur then m else cur) x

/-- The bucket of instances recorded under an idea name. -/
def findBucket (groups : List (PyStr × List Inst)) (name : PyStr) : List Inst :=
  match groups.find? (fun p => decide (p.1 = name)) with
  | some p => p.2
  | none => []

/-- All instances of a similarity group (`all_instances`), in group order. -/
def allInstances (groups : List (PyStr × List Inst)) (g : List PyStr) : List Inst :=
  g.flatMap (findBucket groups)

/-- Parse the scores of the instances whose `Score` field is truthy, in
order; `none` models the `ValueError` escaping the list comprehension when
some present score does not parse. -/
def parseScores : List Inst → Option (List Frac)
  | [] => some []
  | i :: rest =>
      if truthy i.row.score then
        match pyFloat (i.row.score.getD []) with
        | none => none
        | some q => (parseScores rest).map (fun l => q :: l)
      else parseScores rest

/-- Join a list of strings with a separator (model of `sep.join(xs)`). -/
def joinSep (sep : PyStr) : List PyStr → PyStr
  | [] => []
  | [x] => x
  | x :: y :: rest => x ++ sep ++ joinSep sep (y :: rest)

/-- Stable ascending insertion into a sorted list of strings. -/
def insStr (x : PyStr) : List PyStr → List PyStr
  | [] => [x]
  | y :: ys => if strLtB x y then x :: y :: ys else y :: insStr x ys

/-- Model of Python `sorted(set(xs))` on strings: the distinct values in
increasing lexicographic order. -/
def sortedSet (xs : List PyStr) : List PyStr := xs.dedup.foldr insStr []

/-- Stable ascending insertion of a parsed float into a sorted list. -/
def insFrac (x : Frac) : List Frac → List Frac
  | [] => [x]
  | y :: ys => if Frac.leB x y then x :: y :: ys else y :: insFrac x ys

/-- Model of Python `sorted` on the parsed score floats. -/
def sortFracs (xs : List Frac) : List Frac := xs.foldr insFrac []

/-- The `LLM_Source` values of the instances where that field is truthy. -/
def llmSources (insts : List Inst) : List PyStr :=
  (insts.filter (fun i => truthy i.row.llm)).map (fun i => i.row.llm.getD [])

/-- The stripped `Free_Value_Prop` values added to the `free_props` set. -/
def freeProps (insts : List Inst) : List PyStr :=
  (insts.filter (fun i => truthy i.row.freeVP)).map (fun i => pyStrip (i.row.freeVP.getD []))

/-- The stripped `Paid_Value_Prop` values added to the `paid_props` set. -/
def paidProps (insts : List Inst) : List PyStr :=
  (insts.filter (fun i => truthy i.row.paidVP)).map (fun i => pyStrip (i.row.paidVP.getD []))

/-- One `why_scores` block: `f"{source}: {score}\n{rationale}"`, with dict
`get` defaults `'Unknown'` and `'N/A'` for absent fields. -/
def whyEntry (i : Inst) : PyStr :=
  i.row.llm.getD ("Unknown".toList) ++ ": ".toList ++ i.row.score.getD ("N/A".toList)
    ++ '\n' :: i.row.why.getD []

/-- The `why_scores` blocks of the instances with a truthy rationale. -/
def whyScores (insts : List Inst) : List PyStr :=
  (insts.filter (fun i => truthy i.row.why)).map whyEntry

/-- An Aggregate Record: the consolidated output for one similarity group
(the dict the merger stores into `consolidated`). -/
structure Record where
  ideaF : PyStr
  scoreF : PyScore
  freeF : PyStr
  paidF : PyStr
  whyF : PyStr
  llmF : PyStr
deriving DecidableEq

/-- Embedding of the merge step of `consolidate_ideas` for one similarity
group: parse the member scores (an unparsable present score raises, giving
`none`), average, and assemble the Aggregate Record. -/
def mergeGroup (groups : List (PyStr × List Inst)) (g : List PyStr) : Option Record :=
  let canon := pyMinName g
  let insts := allInstances groups g
  match parseScores insts with
  | none => none
  | some scores =>
      let avg : Frac :=
        if scores.isEmpty then ⟨0, 1⟩ else Frac.divNat (scores.foldl Frac.add ⟨0, 1⟩) scores.length
      let scoreOut : PyScore := if scores.isEmpty then .intg 0 else .tenths (pyRound1F avg)
      let roundedStr : PyStr := fmtFrac ⟨pyRound1F avg, 10⟩
      some
        { ideaF := canon
        , scoreF := scoreOut
        , freeF := joinSep " | ".toList (sortedSet (freeProps insts))
        , paidF := joinSep " | ".toList (sortedSet (paidProps insts))
        , whyF :=
            natToStr scores.length ++ " evals\n".toList
              ++ (if 1 < scores.length then "All: ".toList ++ roundedStr else [])
              ++ '\n'
              :: ((if 1 < scores.length then
                    "Used: ".toList
                      ++ joinSep ", ".toList ((sortFracs scores).map fmtFrac) ++ ['\n']
                  else [])
                  ++ joinSep "\n---\n".toList (whyScores insts))
        , llmF := "Consolidated from: ".toList ++ joinSep ", ".toList (sortedSet (llmSources insts)) }

/-- Python dict assignment `d[k] = v` on an insertion-ordered dict: an
existing key keeps its position and gets the new value; a new key is
appended. -/
def dictSet (d : List (PyStr × Record)) (k : PyStr) (v : Record) : List (PyStr × Record) :=
  if d.any (fun p => p.1 = k) then d.map (fun p => if p.1 = k then (k, v) else p)
  else d ++ [(k, v)]

/-- Fold the groups into the `consolidated` dict; the first group whose merge
raises aborts the whole run. -/
def consolidateGo (groups : List (PyStr × List Inst)) :
    List (List PyStr) → List (PyStr × Record) → Option (List (PyStr × Record))
  | [], acc => some acc
  | g :: gs, acc =>
      match mergeGroup groups g with
      | none => none
      | some r => consolidateGo groups gs (dictSet acc (pyMinName g) r)

/-- Embedding of `consolidate_ideas`: `none` models an uncaught exception. -/
def consolidate_ideas (csvData : List (PyStr × List Row)) :
    Option (List (PyStr × Record)) :=
  consolidateGo (ideaGroupsOf csvData) (groupsOf csvData) []

/-- Stable insertion for the descending score sort: the incoming (earlier)
record goes before every record of less-or-equal score, so equal scores keep
their original order, as Python `sorted(..., reverse=True)` guarantees. -/
def insDesc (x : Record) : List Record → List Record
  | [] => [x]
  | y :: ys => if PyScore.leB y.scoreF x.scoreF then x :: y :: ys else y :: insDesc x ys

/-- Model of `sorted(consolidated_ideas.values(), key=lambda x: x['Score'],
reverse=True)`: a stable sort by score descending. -/
def sortByScoreDesc (l : List Record) : List Record := l.foldr insDesc []

/-- Embedding of the row construction of `write_consolidated_csv`: sort by
score descending and attach the 1-based sequence numbers. -/
def write_consolidated_rows (vals : List Record) : List (Nat × Record) :=
  (List.range' 1 (sortByScoreDesc vals).length).zip (sortByScoreDesc vals)

/-- The CSV header of the consolidated file. -/
def fieldnames : List PyStr :=
  ["Number".toList, "Idea".toList, "Score".toList, "Free_Value_Prop".toList,
   "Paid_Value_Prop".toList, "Why_This_Score".toList, "LLM_Source".toList]

/-- The seven serialized cells of one output row, in column order (the csv
writer stringifies the int `Number` and the numeric `Score`). -/
def rowCells (p : Nat × Record) : List PyStr :=
  [natToStr p.1, p.2.ideaF, p.2.scoreF.str, p.2.freeF, p.2.paidF, p.2.whyF, p.2.llmF]

/-- The serialized data rows written for a Consolidated Set. -/
def write_consolidated_cells (vals : List Record) : List (List PyStr) :=
  (write_consolidated_rows vals).map rowCells

/-- Does `csv.writer` (QUOTE_MINIMAL) quote this cell? Yes when it contains
the delimiter, the quote char, or a line-terminator character. -/
def needsQuote (s : PyStr) : Bool :=
  s.any (fun c => c = ',' || c = '"' || c = '\r' || c = '\n')

/-- Double every quote character (the csv quoting escape). -/
def escQuotes (s : PyStr) : PyStr :=
  s.flatMap (fun c => if c = '"' then ['"', '"'] else [c])

/-- Encode one cell, quoting when needed. -/
def encodeCell (s : PyStr) : PyStr :=
  if needsQuote s then '"' :: (escQuotes s ++ ['"']) else s

/-- Encode one CSV row with the default `\r\n` line terminator. -/
def encodeLine (cells : List PyStr) : PyStr :=
  joinSep [','] (cells.map encodeCell) ++ ['\r', '\n']

/-- The full file content produced by `csv.writer`: header then data rows. -/
def encodeCsv (rows : List (List PyStr)) : PyStr := (rows.map encodeLine).flatten

/-- Embedding of `write_consolidated_csv`: the text written to the output
file for a list of Aggregate Records. -/
def write_consolidated_csv (vals : List Record) : PyStr :=
  encodeCsv (fieldnames :: write_consolidated_cells vals)

/-- Universal-newline translation applied by re-opening the file in text
mode without `newline=''` (as `read_csv_files` does): `\r\n` and lone `\r`
both become `\n`. -/
def univNL : PyStr → PyStr
  | [] => []
  | [c] => if c = '\r' then ['\n'] else [c]
  | c :: d :: rest =>
      if c = '\r' then
        if d = '\n' then '\n' :: univNL rest else '\n' :: univNL (d :: rest)
      else c :: univNL (d :: rest)

/-- States of the csv reader: record start, field start after a comma,
inside an unquoted field, inside quotes, just after a closing quote. -/
inductive CsvState where
  | rs | fs | uq | qt | aq
deriving DecidableEq

/-- Character-by-character csv parsing (the dialect of `csv.reader` with
default settings on a universal-newline text stream): `fld` is the current
field reversed, `rec` the current record's finished fields reversed, `acc`
the finished records reversed. -/
def parseCsvGo : List Char → CsvState → PyStr → List PyStr → List (List PyStr) →
    List (List PyStr)
  | [], st, fld, rec, acc =>
      match st with
      | .rs => acc.reverse
      | _ => ((fld.reverse :: rec).reverse :: acc).reverse
  | c :: cs, .rs, _, _, acc =>
      if c = '\n' then parseCsvGo cs .rs [] [] ([] :: acc)
      else if c = ',' then parseCsvGo cs .fs [] [[]] acc
      else if c = '"' then parseCsvGo cs .qt [] [] acc
      else parseCsvGo cs .uq [c] [] acc
  | c :: cs, .fs, _, rec, acc =>
      if c = '\n' then parseCsvGo cs .rs [] [] (([] :: rec).reverse :: acc)
      else if c = ',' then parseCsvGo cs .fs [] ([] :: rec) acc
      else if c = '"' then parseCsvGo cs .qt [] rec acc
      else parseCsvGo cs .uq [c] rec acc
  | c :: cs, .uq, fld, rec, acc =>
      if c = '\n' then parseCsvGo cs .rs [] [] ((fld.reverse :: rec).reverse :: acc)
      else if c = ',' then parseCsvGo cs .fs [] (fld.reverse :: rec) acc
      else parseCsvGo cs .uq (c :: fld) rec acc
  | c :: cs, .qt, fld, rec, acc =>
      if c = '"' then parseCsvGo cs .aq fld rec acc
      else parseCsvGo cs .qt (c :: fld) rec acc
  | c :: cs, .aq, fld, rec, acc =>
      if c = '"' then parseCsvGo cs .qt ('"' :: fld) rec acc
      else if c = ',' then parseCsvGo cs .fs [] (fld.reverse :: rec) acc
      else if c = '\n' then parseCsvGo cs .rs [] [] ((fld.reverse :: rec).reverse :: acc)
      else parseCsvGo cs .uq (c :: fld) rec acc

/-- Parse a whole csv text into records of fields. -/
def parseCsv (s : PyStr) : List (List PyStr) := parseCsvGo s .rs [] [] []

/-- Embedding of the Loader (`read_csv_files` / `csv.DictReader`) on one
file content: the first record gives the field names; every following
non-blank record becomes a field-name/value association (blank rows are
skipped by `DictReader`). -/
def read_csv_rows (content : PyStr) : List (List (PyStr × PyStr)) :=
  match parseCsv content with
  | [] => []
  | hdr :: rest => (rest.filter (fun r => !r.isEmpty)).map (fun r => hdr.zip r)

example : normalize_idea_name ("🚀 Great Idea".toList) = "great idea".toList := by decide
example :
    parseCsv ("a,\"b\"\"x\",c\r\nd,,f\r\n".toList.flatMap (fun c => [c])) =
      parseCsv ("a,\"b\"\"x\",c\r\nd,,f\r\n".toList) := by decide
example :
    parseCsv (univNL ("a,\"b\nx\",c\r\n".toList)) =
      [["a".toList, "b\nx".toList, "c".toList]] := by decide
example : pyFloat ("8.0".toList) = some ⟨80, 10⟩ := by decide
example : pyFloat ("abc".toList) = none := by decide
example : pyFloat (" -2.5e1 ".toList) = some ⟨-250, 10⟩ := by decide
example : pyRound1F ⟨25, 2⟩ = 125 := by decide
example : fmtFrac ⟨80, 10⟩ = "8.0".toList := by decide
example : PyScore.str (.tenths 85) = "8.5".toList := by decide
example : are_ideas_similar ("x".toList) ("xyyyyyyy".toList) = true := by decide
example : are_ideas_similar ("xyyyyyyy".toList) ("yyyyyyyz".toList) = true := by decide
example : are_ideas_similar ("x".toList) ("yyyyyyyz".toList) = false := by decide

/-- Does this optional field avoid the carriage-return character? True for
every value obtained by reading a file in universal-newline text mode, as
`read_csv_files` does. -/
def optCrFree : Option PyStr → Bool
  | none => true
  | some s => !s.contains '\r'

/-- All six fields of a row avoid carriage returns. -/
def rowCrFree (r : Row) : Bool :=
  optCrFree r.idea && optCrFree r.score && optCrFree r.freeVP
    && optCrFree r.paidVP && optCrFree r.why && optCrFree r.llm

/-- Does a string avoid the carriage-return character? -/
def strCrFree (s : PyStr) : Bool := !s.contains '\r'

/-- All five string fields of an Aggregate Record avoid carriage returns
(the numeric `Score` field serializes to digits, a sign and a dot, so it
never holds one). -/
def recCrFree (r : Record) : Bool :=
  strCrFree r.ideaF && strCrFree r.freeF && strCrFree r.paidF
    && strCrFree r.whyF && strCrFree r.llmF

/-- Specification-side description of the grouping rule, following the
spec's words: each not-yet-assigned name opens a group; a later name joins
exactly when it matches the group's seed; matched names are removed before
the next group opens. Compared against the embedded scan in claim C1. -/
def seedGroups : List PyStr → List (List PyStr)
  | [] => []
  | seed :: rest =>
      (seed :: rest.filter (fun m => are_ideas_similar seed m)) ::
        seedGroups (rest.filter (fun m => !are_ideas_similar seed m))
termination_by l => l.length
decreasing_by
  simp only [List.length_cons]
  exact Nat.lt_succ_of_le (List.length_filter_le _ _)

/-! ## Helper lemmas about characters and normalization -/

theorem char_toNat_ofNat_valid (n : Nat) (h2 : n < 55296) :
    (Char.ofNat n).toNat = n := by
  have hv : n.isValidChar := Or.inl (by omega)
  simp [Char.ofNat, hv, Char.toNat, Char.ofNatAux, UInt32.ofNat', UInt32.toNat,
    BitVec.toNat_ofNatLt]

theorem char_eq_of_toNat_eq {c d : Char} (h : c.toNat = d.toNat) : c = d := by
  have h1 := Char.ofNat_toNat c
  rw [h, Char.ofNat_toNat d] at h1
  exact h1.symm

theorem lowerChar_eq_self {c : Char} (h : ¬(65 ≤ c.toNat ∧ c.toNat ≤ 90)) :
    lowerChar c = c := by
  unfold lowerChar
  exact if_neg h

theorem lowerChar_toNat (c : Char) :
    (lowerChar c).toNat = if 65 ≤ c.toNat ∧ c.toNat ≤ 90 then c.toNat + 32 else c.toNat := by
  unfold lowerChar
  split
  case isTrue h => exact char_toNat_ofNat_valid _ (by omega)
  case isFalse h => rfl

theorem lowerChar_idem (c : Char) : lowerChar (lowerChar c) = lowerChar c := by
  by_cases h : 65 ≤ c.toNat ∧ c.toNat ≤ 90
  · have ht : (lowerChar c).toNat = c.toNat + 32 := by rw [lowerChar_toNat, if_pos h]
    exact lowerChar_eq_self (by omega)
  · rw [lowerChar_eq_self h]
    exact lowerChar_eq_self h

theorem isPySpace_of_ge {c : Char} (h : 33 ≤ c.toNat) : isPySpace c = false := by
  unfold isPySpace
  have e1 : c ≠ ' ' := fun e => absurd h (by subst e; decide)
  have e2 : c ≠ '\t' := fun e => absurd h (by subst e; decide)
  have e3 : c ≠ '\n' := fun e => absurd h (by subst e; decide)
  have e4 : c ≠ '\r' := fun e => absurd h (by subst e; decide)
  have e5 : c ≠ '\x0b' := fun e => absurd h (by subst e; decide)
  have e6 : c ≠ '\x0c' := fun e => absurd h (by subst e; decide)
  simp [e1, e2, e3, e4, e5, e6]

theorem isPySpace_lowerChar (c : Char) : isPySpace (lowerChar c) = isPySpace c := by
  by_cases h : 65 ≤ c.toNat ∧ c.toNat ≤ 90
  · have ht : (lowerChar c).toNat = c.toNat + 32 := by rw [lowerChar_toNat, if_pos h]
    rw [isPySpace_of_ge (by omega), isPySpace_of_ge (by omega)]
  · rw [lowerChar_eq_self h]

theorem lowerChar_ne_rocket {c : Char} (h : c ≠ rocketChar) : lowerChar c ≠ rocketChar := by
  by_cases hu : 65 ≤ c.toNat ∧ c.toNat ≤ 90
  · have ht : (lowerChar c).toNat = c.toNat + 32 := by rw [lowerChar_toNat, if_pos hu]
    intro e
    have : (lowerChar c).toNat = rocketChar.toNat := by rw [e]
    rw [ht] at this
    have hr : rocketChar.toNat = 128640 := by decide
    omega
  · rw [lowerChar_eq_self hu]; exact h

theorem mem_pyStrip {a : Char} {s : PyStr} (h : a ∈ pyStrip s) : a ∈ s := by
  unfold pyStrip at h
  rw [List.mem_reverse] at h
  have h2 := (List.dropWhile_suffix isPySpace).sublist.subset h
  rw [List.mem_reverse] at h2
  exact (List.dropWhile_suffix isPySpace).sublist.subset h2

theorem pyStrip_eq (s : PyStr) :
    pyStrip s = List.rdropWhile isPySpace (List.dropWhile isPySpace s) := rfl

theorem pyStrip_lowerStr (t : PyStr) : pyStrip (lowerStr t) = lowerStr (pyStrip t) := by
  have hp : isPySpace ∘ lowerChar = isPySpace := funext isPySpace_lowerChar
  unfold pyStrip lowerStr
  rw [List.dropWhile_map, hp, ← List.map_reverse, List.dropWhile_map, hp, ← List.map_reverse]

theorem dropWhile_rdropWhile_dropWhile (p : Char → Bool) (s : PyStr) :
    List.dropWhile p (List.rdropWhile p (List.dropWhile p s))
      = List.rdropWhile p (List.dropWhile p s) := by
  rw [List.dropWhile_eq_self_iff]
  intro hl
  obtain ⟨t, ht⟩ := List.rdropWhile_prefix p (List.dropWhile p s)
  have hy0 : 0 < (List.dropWhile p s).length := by
    rw [← ht, List.length_append]
    omega
  have h2 := List.dropWhile_get_zero_not p s hy0
  simp only [List.get_eq_getElem] at h2 ⊢
  have hget := (List.rdropWhile_prefix p (List.dropWhile p s)).getElem hl
  rw [hget]
  exact h2

theorem pyStrip_idem (s : PyStr) : pyStrip (pyStrip s) = pyStrip s := by
  rw [pyStrip_eq, pyStrip_eq s, dropWhile_rdropWhile_dropWhile,
    List.rdropWhile_idempotent]

theorem lowerStr_idem (t : PyStr) : lowerStr (lowerStr t) = lowerStr t := by
  unfold lowerStr
  rw [List.map_map]
  exact List.map_congr_left (fun c _ => lowerChar_idem c)

theorem removeRocket_normalize (s : PyStr) :
    removeRocket (normalize_idea_name s) = normalize_idea_name s := by
  unfold removeRocket
  rw [List.filter_eq_self]
  intro a ha
  unfold normalize_idea_name lowerStr at ha
  obtain ⟨b, hb, rfl⟩ := List.mem_map.mp ha
  have hbr : b ≠ rocketChar := by
    have := mem_pyStrip hb
    unfold removeRocket at this
    have := List.of_mem_filter this
    simpa using this
  simpa using lowerChar_ne_rocket hbr

theorem startsW_nil (t : PyStr) : startsW t [] = true := by cases t <;> rfl

theorem containsSub_nil (t : PyStr) : containsSub t [] = true := by
  unfold containsSub
  rw [startsW_nil]
  rfl

/-! ## Lexicographic order lemmas (for the canonical-name `min`) -/

theorem strLtB_irrefl (a : PyStr) : strLtB a a = false := by
  induction a with
  | nil => rfl
  | cons c s ih => simp [strLtB, ih]

theorem strLtB_trans {a b c : PyStr} (h1 : strLtB a b = true) (h2 : strLtB b c = true) :
    strLtB a c = true := by
  induction a generalizing b c with
  | nil =>
      cases b with
      | nil => simp [strLtB] at h1
      | cons d t =>
          cases c with
          | nil => simp [strLtB] at h2
          | cons e u => rfl
  | cons x s ih =>
      cases b with
      | nil => simp [strLtB] at h1
      | cons d t =>
          cases c with
          | nil => simp [strLtB] at h2
          | cons e u =>
              simp only [strLtB] at h1 h2 ⊢
              split at h1
              · split at h2
                · rw [if_pos (by omega)]
                · split at h2
                  · simp at h2
                  · have : d.toNat = e.toNat := by omega
                    rw [if_pos (by omega)]
              · split at h1
                · simp at h1
                · have hxd : x.toNat = d.toNat := by omega
                  split at h2
                  · rw [if_pos (by omega)]
                  · split at h2
                    · simp at h2
                    · have hde : d.toNat = e.toNat := by omega
                      rw [if_neg (by omega), if_neg (by omega)]
                      exact ih h1 h2

theorem strLtB_total {a b : PyStr} (h1 : strLtB a b = false) (h2 : strLtB b a = false) :
    a = b := by
  induction a generalizing b with
  | nil =>
      cases b with
      | nil => rfl
      | cons d t => simp [strLtB] at h1
  | cons x s ih =>
      cases b with
      | nil => simp [strLtB] at h2
      | cons d t =>
          simp only [strLtB] at h1 h2
          by_cases hxd : x.toNat < d.toNat
          · rw [if_pos hxd] at h1
            simp at h1
          · by_cases hdx : d.toNat < x.toNat
            · rw [if_pos hdx] at h2
              simp at h2
            · rw [if_neg hxd, if_neg hdx] at h1
              rw [if_neg hdx, if_neg hxd] at h2
              have hx : x = d := char_eq_of_toNat_eq (by omega)
              subst hx
              rw [ih h1 h2]

theorem keyLtB_cases (a b : PyStr) :
    keyLtB a b =
      if (normalize_idea_name a).length < (normalize_idea_name b).length then true
      else if (normalize_idea_name b).length < (normalize_idea_name a).length then false
      else strLtB a b := rfl

theorem keyLtB_trans {a b c : PyStr} (h1 : keyLtB a b = true) (h2 : keyLtB b c = true) :
    keyLtB a c = true := by
  rw [keyLtB_cases] at h1 h2 ⊢
  by_cases e1 : (normalize_idea_name a).length < (normalize_idea_name b).length
  · by_cases e2 : (normalize_idea_name b).length < (normalize_idea_name c).length
    · rw [if_pos (by omega)]
    · rw [if_neg e2] at h2
      by_cases e3 : (normalize_idea_name c).length < (normalize_idea_name b).length
      · rw [if_pos e3] at h2
        simp at h2
      · rw [if_pos (by omega)]
  · rw [if_neg e1] at h1
    by_cases e4 : (normalize_idea_name b).length < (normalize_idea_name a).length
    · rw [if_pos e4] at h1
      simp at h1
    · rw [if_neg e4] at h1
      by_cases e2 : (normalize_idea_name b).length < (normalize_idea_name c).length
      · rw [if_pos (by omega)]
      · rw [if_neg e2] at h2
        by_cases e3 : (normalize_idea_name c).length < (normalize_idea_name b).length
        · rw [if_pos e3] at h2
          simp at h2
        · rw [if_neg e3] at h2
          rw [if_neg (by omega), if_neg (by omega)]
          exact strLtB_trans h1 h2

theorem keyLtB_total {a b : PyStr} (h1 : keyLtB a b = false) (h2 : keyLtB b a = false) :
    a = b := by
  rw [keyLtB_cases] at h1 h2
  by_cases e1 : (normalize_idea_name a).length < (normalize_idea_name b).length
  · rw [if_pos e1] at h1
    simp at h1
  · by_cases e2 : (normalize_idea_name b).length < (normalize_idea_name a).length
    · rw [if_pos e2] at h2
      simp at h2
    · rw [if_neg e1, if_neg e2] at h1
      rw [if_neg e2, if_neg e1] at h2
      exact strLtB_total h1 h2

theorem keyLtB_irrefl (a : PyStr) : keyLtB a a = false := by
  rw [keyLtB_cases]
  rw [if_neg (by omega), if_neg (by omega)]
  exact strLtB_irrefl a

theorem pyMin_fold_spec (xs : List PyStr) :
    ∀ cur : PyStr,
      (xs.foldl (fun cur m => if keyLtB m cur then m else cur) cur = cur
        ∨ xs.foldl (fun cur m => if keyLtB m cur then m else cur) cur ∈ xs) ∧
      ∀ m : PyStr, (m = cur ∨ m ∈ xs) →
        keyLtB m (xs.foldl (fun cur m => if keyLtB m cur then m else cur) cur) = false := by
  induction xs with
  | nil =>
      intro cur
      refine ⟨Or.inl rfl, ?_⟩
      intro m hm
      rcases hm with rfl | hm
      · exact keyLtB_irrefl m
      · cases hm
  | cons x t ih =>
      intro cur
      constructor
      · rcases (ih (if keyLtB x cur then x else cur)).1 with h | h
        · rw [List.foldl_cons, h]
          split
          · exact Or.inr (List.mem_cons_self x t)
          · exact Or.inl rfl
        · rw [List.foldl_cons]
          exact Or.inr (List.mem_cons_of_mem x h)
      · intro m hm
        rw [List.foldl_cons]
        have hcur' := (ih (if keyLtB x cur then x else cur)).2
        have hc : keyLtB (if keyLtB x cur then x else cur)
            (t.foldl (fun cur m => if keyLtB m cur then m else cur)
              (if keyLtB x cur then x else cur)) = false :=
          hcur' _ (Or.inl rfl)
        rcases hm with rfl | hm
        · by_cases hk : keyLtB x m = true
          · rw [if_pos hk] at hcur' hc ⊢
            by_contra hlt
            rw [Bool.not_eq_false] at hlt
            have h2 := keyLtB_trans hk hlt
            rw [h2] at hc
            simp at hc
          · rw [if_neg hk] at hcur' ⊢
            exact hcur' m (Or.inl rfl)
        · rcases List.mem_cons.mp hm with rfl | hm
          · by_cases hk : keyLtB m cur = true
            · rw [if_pos hk] at hcur' ⊢
              exact hcur' m (Or.inl rfl)
            · rw [if_neg hk] at hcur' hc ⊢
              rw [Bool.not_eq_true] at hk
              by_contra hlt
              rw [Bool.not_eq_false] at hlt
              by_cases hcx : keyLtB cur m = true
              · have h2 := keyLtB_trans hcx hlt
                rw [h2] at hc
                simp at hc
              · rw [Bool.not_eq_true] at hcx
                have hmc := keyLtB_total hk hcx
                subst hmc
                rw [hlt] at hc
                simp at hc
          · exact hcur' m (Or.inr hm)

/-! ## Claim C8: normalization is total and idempotent -/

/-- C8: `normalize_idea_name` is a total, deterministic function on strings
(it is a Lean function, defined for every `PyStr` including the empty one)
and is idempotent: normalizing twice gives the same result as normalizing
once. -/
theorem C8_normalize_total_idempotent (s : PyStr) :
    normalize_idea_name (normalize_idea_name s) = normalize_idea_name s := by
  show lowerStr (pyStrip (removeRocket (normalize_idea_name s))) = normalize_idea_name s
  rw [removeRocket_normalize]
  show lowerStr (pyStrip (lowerStr (pyStrip (removeRocket s)))) = normalize_idea_name s
  rw [pyStrip_lowerStr, pyStrip_idem, lowerStr_idem]
  rfl

/-! ## Claim C7: the substring rule and the empty string -/

/-- C7 counterexample: the name `"🚀"` normalizes to the empty string, the
containment branch `norm1 in norm2` succeeds on it against the unrelated
name `"xyz"` (Python `in` treats the empty string as a substring of every
string), and `are_ideas_similar` declares the two names a match. -/
theorem C7_counterexample :
    normalize_idea_name ("🚀".toList) = [] ∧
    substrRule (normalize_idea_name ("🚀".toList)) (normalize_idea_name ("xyz".toList)) = true ∧
    are_ideas_similar ("🚀".toList) ("xyz".toList) = true := by decide

/-- C7 amended: the containment rule applies to empty substrings as well: a
name whose normalized form is the empty string matches every other name
through the substring branch (there is no non-emptiness restriction in the
code). -/
theorem C7_amended_empty_matches_all (s t : PyStr)
    (h : normalize_idea_name s = []) : are_ideas_similar s t = true := by
  have hs : substrRule [] (normalize_idea_name t) = true := by
    unfold substrRule
    simp [containsSub_nil]
  simp [are_ideas_similar, h, hs]

/-- Witness for C7: a concrete rocket-only name matches a concrete unrelated
name. -/
theorem C7_witness : are_ideas_similar ("🚀 ".toList) ("abc".toList) = true :=
  C7_amended_empty_matches_all _ _ (by decide)

/-! ## Claim C5: canonical name selection -/

/-- C5: for a non-empty similarity group, the canonical name
`min(similar_group, key=lambda x: (len(normalize_idea_name(x)), x))` is a
member of the group, its normalized form has minimal length among the
members, and on ties of normalized length no member is lexicographically
smaller than it (so it is the lexicographically least original string among
the shortest-normalized members). -/
theorem C5_canonical_name (g : List PyStr) (x : PyStr) (hx : x ∈ g) :
    pyMinName g ∈ g ∧
    ∀ m ∈ g,
      (normalize_idea_name (pyMinName g)).length ≤ (normalize_idea_name m).length ∧
      ((normalize_idea_name (pyMinName g)).length = (normalize_idea_name m).length →
        strLtB m (pyMinName g) = false) := by
  cases g with
  | nil => cases hx
  | cons a t =>
      have hs := pyMin_fold_spec t a
      constructor
      · show t.foldl (fun cur m => if keyLtB m cur then m else cur) a ∈ a :: t
        rcases hs.1 with h | h
        · rw [h]
          exact List.mem_cons_self a t
        · exact List.mem_cons_of_mem a h
      · intro m hm
        have hf : keyLtB m (pyMinName (a :: t)) = false := by
          show keyLtB m (t.foldl (fun cur m => if keyLtB m cur then m else cur) a) = false
          refine hs.2 m ?_
          rcases List.mem_cons.mp hm with h | h
          · exact Or.inl h
          · exact Or.inr h
        rw [keyLtB_cases] at hf
        constructor
        · by_contra hlt
          rw [if_pos (by omega)] at hf
          simp at hf
        · intro he
          rw [if_neg (by omega), if_neg (by omega)] at hf
          exact hf

/-- Witness for C5 at the spec's example: of `["🚀 Great Idea", "great idea"]`
(both normalize to `"great idea"`, a tie on length) the canonical name is the
lexicographically smaller original `"great idea"`. -/
theorem C5_witness :
    pyMinName ["🚀 Great Idea".toList, "great idea".toList] = "great idea".toList ∧
    (pyMinName ["🚀 Great Idea".toList, "great idea".toList]
        ∈ ["🚀 Great Idea".toList, "great idea".toList] ∧
      ∀ m ∈ ["🚀 Great Idea".toList, "great idea".toList],
        (normalize_idea_name (pyMinName ["🚀 Great Idea".toList, "great idea".toList])).length
            ≤ (normalize_idea_name m).length ∧
        ((normalize_idea_name (pyMinName ["🚀 Great Idea".toList, "great idea".toList])).length
              = (normalize_idea_name m).length →
          strLtB m (pyMinName ["🚀 Great Idea".toList, "great idea".toList]) = false)) :=
  ⟨by decide, C5_canonical_name _ ("🚀 Great Idea".toList) (List.mem_cons_self _ _)⟩

/-! ## Claim C1: seed-only grouping -/

theorem innerScan_fst (seed : PyStr) (rest : List PyStr) :
    ∀ P : List PyStr, rest.Nodup →
      (innerScan seed rest P).1
        = rest.filter (fun m => decide (m ∉ P) && are_ideas_similar seed m) := by
  induction rest with
  | nil => intro P _; rfl
  | cons m t ih =>
      intro P hnd
      rw [List.nodup_cons] at hnd
      unfold innerScan
      by_cases hm : m ∉ P ∧ are_ideas_similar seed m = true
      · rw [if_pos hm]
        have hcond : (decide (m ∉ P) && are_ideas_similar seed m) = true := by
          rw [Bool.and_eq_true]
          exact ⟨by simpa using hm.1, hm.2⟩
        show m :: (innerScan seed t (m :: P)).1
            = List.filter (fun m => decide (m ∉ P) && are_ideas_similar seed m) (m :: t)
        simp only [List.filter_cons]
        rw [hcond, if_pos rfl]
        have hfe : t.filter (fun x => decide (x ∉ m :: P) && are_ideas_similar seed x)
            = t.filter (fun x => decide (x ∉ P) && are_ideas_similar seed x) := by
          apply List.filter_congr
          intro x hx
          have hxm : x ≠ m := fun e => hnd.1 (e ▸ hx)
          by_cases hxP : x ∈ P
          · have e1 : decide (x ∉ m :: P) = false := by simp [hxP]
            have e2 : decide (x ∉ P) = false := by simp [hxP]
            rw [e1, e2]
          · have e1 : decide (x ∉ m :: P) = true := by simp [hxP, hxm]
            have e2 : decide (x ∉ P) = true := by simp [hxP]
            rw [e1, e2]
        rw [← hfe]
        rw [ih (m :: P) hnd.2]
      · rw [if_neg hm]
        have hcond : (decide (m ∉ P) && are_ideas_similar seed m) = false := by
          by_cases hP : m ∈ P
          · simp [hP]
          · have hns : ¬ are_ideas_similar seed m = true := fun hs => hm ⟨hP, hs⟩
            simp [hns]
        show (innerScan seed t P).1
            = List.filter (fun m => decide (m ∉ P) && are_ideas_similar seed m) (m :: t)
        simp only [List.filter_cons]
        rw [hcond, if_neg Bool.false_ne_true]
        exact ih P hnd.2

theorem innerScan_snd_mem (seed : PyStr) (rest : List PyStr) :
    ∀ (P : List PyStr) (x : PyStr),
      x ∈ (innerScan seed rest P).2
        ↔ x ∈ P ∨ (x ∈ rest ∧ x ∉ P ∧ are_ideas_similar seed x = true) := by
  induction rest with
  | nil => intro P x; simp [innerScan]
  | cons m t ih =>
      intro P x
      unfold innerScan
      by_cases hm : m ∉ P ∧ are_ideas_similar seed m = true
      · rw [if_pos hm]
        show x ∈ (innerScan seed t (m :: P)).2 ↔ _
        rw [ih (m :: P) x]
        simp only [List.mem_cons]
        by_cases hxm : x = m
        · subst hxm
          simp [hm.1, hm.2]
        · simp [hxm]
      · rw [if_neg hm]
        rw [ih P x]
        simp only [List.mem_cons]
        by_cases hxm : x = m
        · subst hxm
          constructor
          · tauto
          · rintro (h | h)
            · exact Or.inl h
            · exact absurd ⟨h.2.1, h.2.2⟩ hm
        · tauto

theorem outerScan_eq_seedGroups (names : List PyStr) :
    ∀ P : List PyStr, names.Nodup →
      outerScan names P = seedGroups (names.filter (fun m => decide (m ∉ P))) := by
  induction names with
  | nil => intro P _; simp [outerScan, seedGroups]
  | cons n rest ih =>
      intro P hnd
      rw [List.nodup_cons] at hnd
      unfold outerScan
      by_cases hn : n ∈ P
      · rw [if_pos hn]
        rw [ih P hnd.2]
        congr 1
        simp only [List.filter_cons]
        have hdn : decide (n ∉ P) = false := by simp [hn]
        rw [hdn, if_neg Bool.false_ne_true]
      · rw [if_neg hn]
        have hdn : decide (n ∉ P) = true := by simp [hn]
        simp only [List.filter_cons]
        rw [hdn, if_pos rfl]
        rw [seedGroups]
        show (n :: (innerScan n rest P).1) :: outerScan rest (n :: (innerScan n rest P).2) = _
        congr 1
        · congr 1
          rw [innerScan_fst n rest P hnd.2]
          rw [List.filter_filter]
          apply List.filter_congr
          intro x _
          exact Bool.and_comm _ _
        · rw [ih (n :: (innerScan n rest P).2) hnd.2]
          congr 1
          rw [List.filter_filter]
          apply List.filter_congr
          intro x hx
          have hxn : x ≠ n := fun e => hnd.1 (e ▸ hx)
          have hmem := innerScan_snd_mem n rest P x
          by_cases hxP : x ∈ P
          · have hins : x ∈ (innerScan n rest P).2 := hmem.mpr (Or.inl hxP)
            have e1 : decide (x ∉ n :: (innerScan n rest P).2) = false := by
              simp [List.mem_cons, hins]
            have e2 : (!are_ideas_similar n x && decide (x ∉ P)) = false := by simp [hxP]
            rw [e1, e2]
          · by_cases hsim : are_ideas_similar n x = true
            · have hins : x ∈ (innerScan n rest P).2 := hmem.mpr (Or.inr ⟨hx, hxP, hsim⟩)
              have e1 : decide (x ∉ n :: (innerScan n rest P).2) = false := by
                simp [List.mem_cons, hins]
              have e2 : (!are_ideas_similar n x && decide (x ∉ P)) = false := by
                simp [hsim]
              rw [e1, e2]
            · have hnotin : x ∉ (innerScan n rest P).2 := by
                intro hin
                rcases hmem.mp hin with h | h
                · exact hxP h
                · exact hsim h.2.2
              have e1 : decide (x ∉ n :: (innerScan n rest P).2) = true := by
                simp [List.mem_cons, hxn, hnotin]
              have hsf : are_ideas_similar n x = false := by
                rcases Bool.eq_false_or_eq_true (are_ideas_similar n x) with h | h
                · exact absurd h hsim
                · exact h
              have e2 : (!are_ideas_similar n x && decide (x ∉ P)) = true := by
                simp [hsf, hxP]
              rw [e1, e2]

/-- C1: grouping is seed-only and non-transitive. First, the refinement: on
every list of distinct names (as `idea_names` always is, being dict keys),
the processed-set scan of `consolidate_ideas` equals the specification-side
`seedGroups`, which adds a not-yet-assigned name to a group exactly when it
matches the group's seed. Second, the concrete non-transitivity instance:
with A = "x", B = "xyyyyyyy", C = "yyyyyyyz" we have A~B (substring),
B~C (ratio 0.875 ≥ 0.85), not A~C, and grouping A first yields exactly
the groups {A,B} and {C}. -/
theorem C1_seed_only_grouping :
    (∀ names : List PyStr, names.Nodup → outerScan names [] = seedGroups names) ∧
    are_ideas_similar ("x".toList) ("xyyyyyyy".toList) = true ∧
    are_ideas_similar ("xyyyyyyy".toList) ("yyyyyyyz".toList) = true ∧
    are_ideas_similar ("x".toList) ("yyyyyyyz".toList) = false ∧
    outerScan ["x".toList, "xyyyyyyy".toList, "yyyyyyyz".toList] []
      = [["x".toList, "xyyyyyyy".toList], ["yyyyyyyz".toList]] := by
  refine ⟨?_, by decide, by decide, by decide, by decide⟩
  intro names hnd
  have h := outerScan_eq_seedGroups names [] hnd
  rwa [List.filter_eq_self.mpr (fun a _ => by simp)] at h

/-- Witness for C1: the refinement applied to the concrete three-name list. -/
theorem C1_witness :
    outerScan ["x".toList, "xyyyyyyy".toList, "yyyyyyyz".toList] []
      = seedGroups ["x".toList, "xyyyyyyy".toList, "yyyyyyyz".toList] :=
  C1_seed_only_grouping.1 _ (by decide)

/-! ## Claim C6: writer ordering -/

theorem PyScore.toQ_eq (a : PyScore) : a.toQ = (a.times10 : ℚ) / 10 := by
  cases a with
  | intg n =>
      show (n : ℚ) = ((10 * n : ℤ) : ℚ) / 10
      push_cast
      ring
  | tenths k => rfl

theorem PyScore.leB_iff (a b : PyScore) : (PyScore.leB a b = true) ↔ a.toQ ≤ b.toQ := by
  unfold PyScore.leB
  rw [decide_eq_true_iff]
  rw [PyScore.toQ_eq, PyScore.toQ_eq, div_le_div_iff_of_pos_right (by norm_num : (0:ℚ) < 10)]
  exact Int.cast_le.symm

theorem insDesc_perm (x : Record) (l : List Record) : (insDesc x l).Perm (x :: l) := by
  induction l with
  | nil => exact List.Perm.refl _
  | cons y ys ih =>
      unfold insDesc
      split
      · exact List.Perm.refl _
      · exact (ih.cons y).trans (List.Perm.swap x y ys)

theorem sortByScoreDesc_perm (l : List Record) : (sortByScoreDesc l).Perm l := by
  induction l with
  | nil => exact List.Perm.refl _
  | cons r t ih =>
      show (insDesc r (sortByScoreDesc t)).Perm (r :: t)
      exact (insDesc_perm r (sortByScoreDesc t)).trans (ih.cons r)

theorem insDesc_sorted (x : Record) (l : List Record)
    (h : List.Pairwise (fun a b : Record => b.scoreF.toQ ≤ a.scoreF.toQ) l) :
    List.Pairwise (fun a b : Record => b.scoreF.toQ ≤ a.scoreF.toQ) (insDesc x l) := by
  induction l with
  | nil => exact List.pairwise_singleton _ x
  | cons y ys ih =>
      rw [List.pairwise_cons] at h
      unfold insDesc
      split
      case isTrue hle =>
        rw [List.pairwise_cons]
        refine ⟨?_, List.pairwise_cons.mpr h⟩
        intro z hz
        rcases List.mem_cons.mp hz with rfl | hz
        · exact (PyScore.leB_iff _ _).mp hle
        · exact le_trans (h.1 z hz) ((PyScore.leB_iff _ _).mp hle)
      case isFalse hgt =>
        rw [List.pairwise_cons]
        have hlt : ¬ y.scoreF.toQ ≤ x.scoreF.toQ := fun hc =>
          hgt ((PyScore.leB_iff _ _).mpr hc)
        constructor
        · intro z hz
          have hz2 := (insDesc_perm x ys).mem_iff.mp hz
          rcases List.mem_cons.mp hz2 with hzx | hzy
          · rw [hzx]
            exact le_of_lt (lt_of_not_le hlt)
          · exact h.1 z hzy
        · exact ih h.2

theorem sortByScoreDesc_sorted (l : List Record) :
    List.Pairwise (fun a b : Record => b.scoreF.toQ ≤ a.scoreF.toQ) (sortByScoreDesc l) := by
  induction l with
  | nil => exact List.Pairwise.nil
  | cons r t ih => exact insDesc_sorted r (sortByScoreDesc t) ih

theorem insDesc_filter (q : ℚ) (x : Record) (l : List Record) :
    (insDesc x l).filter (fun r => decide (r.scoreF.toQ = q))
      = if x.scoreF.toQ = q then
          x :: l.filter (fun r => decide (r.scoreF.toQ = q))
        else l.filter (fun r => decide (r.scoreF.toQ = q)) := by
  induction l with
  | nil =>
      unfold insDesc
      by_cases hx : x.scoreF.toQ = q
      · rw [if_pos hx]
        simp [hx]
      · rw [if_neg hx]
        simp [hx]
  | cons y ys ih =>
      unfold insDesc
      split
      case isTrue hle =>
        by_cases hx : x.scoreF.toQ = q
        · rw [if_pos hx]
          simp [List.filter_cons, hx]
        · rw [if_neg hx]
          simp [List.filter_cons, hx]
      case isFalse hgt =>
        have hxy : x.scoreF.toQ < y.scoreF.toQ := by
          have : ¬ y.scoreF.toQ ≤ x.scoreF.toQ := by
            intro hc
            exact hgt ((PyScore.leB_iff _ _).mpr hc)
          exact lt_of_not_le this
        by_cases hx : x.scoreF.toQ = q
        · rw [if_pos hx]
          have hy : ¬ y.scoreF.toQ = q := by
            intro hc
            rw [hx] at hxy
            rw [hc] at hxy
            exact lt_irrefl q hxy
          rw [List.filter_cons_of_neg (by simp [hy])]
          rw [List.filter_cons_of_neg (by simp [hy])]
          rw [ih, if_pos hx]
        · rw [if_neg hx]
          by_cases hy : y.scoreF.toQ = q
          · rw [List.filter_cons_of_pos (by simp [hy])]
            rw [List.filter_cons_of_pos (by simp [hy])]
            rw [ih, if_neg hx]
          · rw [List.filter_cons_of_neg (by simp [hy])]
            rw [List.filter_cons_of_neg (by simp [hy])]
            rw [ih, if_neg hx]

theorem sortByScoreDesc_stable (q : ℚ) (l : List Record) :
    (sortByScoreDesc l).filter (fun r => decide (r.scoreF.toQ = q))
      = l.filter (fun r => decide (r.scoreF.toQ = q)) := by
  induction l with
  | nil => rfl
  | cons r t ih =>
      show ((insDesc r (sortByScoreDesc t)).filter _) = _
      rw [insDesc_filter]
      by_cases hr : r.scoreF.toQ = q
      · rw [if_pos hr, ih, List.filter_cons_of_pos (by simp [hr])]
      · rw [if_neg hr, ih, List.filter_cons_of_neg (by simp [hr])]

/-- C6: the Writer's output rows are exactly the Aggregate Records (a
permutation), ordered by Score descending; the sort is stable in that for
every score value the records carrying it appear in the same relative order
as in the input (the grouper-discovery order); and the `Number` field of the
i-th row is i, for i = 1..N. -/
theorem C6_writer_ordering (vals : List Record) :
    ((write_consolidated_rows vals).map Prod.snd).Perm vals ∧
    List.Pairwise (fun a b : Record => b.scoreF.toQ ≤ a.scoreF.toQ)
      ((write_consolidated_rows vals).map Prod.snd) ∧
    (∀ q : ℚ, ((write_consolidated_rows vals).map Prod.snd).filter
        (fun r => decide (r.scoreF.toQ = q))
      = vals.filter (fun r => decide (r.scoreF.toQ = q))) ∧
    (write_consolidated_rows vals).map Prod.fst = List.range' 1 vals.length := by
  have hlen : (sortByScoreDesc vals).length = vals.length :=
    (sortByScoreDesc_perm vals).length_eq
  have hsnd : (write_consolidated_rows vals).map Prod.snd = sortByScoreDesc vals := by
    unfold write_consolidated_rows
    apply List.map_snd_zip
    rw [List.length_range']
  have hfst : (write_consolidated_rows vals).map Prod.fst
      = List.range' 1 (sortByScoreDesc vals).length := by
    unfold write_consolidated_rows
    apply List.map_fst_zip
    rw [List.length_range']
  refine ⟨?_, ?_, ?_, ?_⟩
  · rw [hsnd]
    exact sortByScoreDesc_perm vals
  · rw [hsnd]
    exact sortByScoreDesc_sorted vals
  · intro q
    rw [hsnd]
    exact sortByScoreDesc_stable q vals
  · rw [hfst, hlen]

/-! ## First-pass dictionary lemmas (for C2, C10) -/

theorem findBucket_map_update_ne (name : PyStr) (i : Inst) (k : PyStr) (hk : k ≠ name) :
    ∀ g : List (PyStr × List Inst),
      findBucket (g.map (fun p => if p.1 = name then (p.1, p.2 ++ [i]) else p)) k
        = findBucket g k := by
  intro g
  induction g with
  | nil => rfl
  | cons p g' ih =>
      by_cases hp : p.1 = name
      · have hpk : ¬ p.1 = k := by rw [hp]; exact fun e => hk e.symm
        simp only [List.map_cons, if_pos hp]
        unfold findBucket
        rw [List.find?_cons_of_neg _ (by simpa using hpk), List.find?_cons_of_neg _ (by simpa using hpk)]
        exact ih
      · simp only [List.map_cons, if_neg hp]
        by_cases hpk : p.1 = k
        · unfold findBucket
          rw [List.find?_cons_of_pos _ (by simpa using hpk), List.find?_cons_of_pos _ (by simpa using hpk)]
        · unfold findBucket
          rw [List.find?_cons_of_neg _ (by simpa using hpk), List.find?_cons_of_neg _ (by simpa using hpk)]
          exact ih

theorem findBucket_map_update_eq (name : PyStr) (i : Inst) :
    ∀ g : List (PyStr × List Inst),
      (g.any (fun p => decide (p.1 = name))) = true →
      findBucket (g.map (fun p => if p.1 = name then (p.1, p.2 ++ [i]) else p)) name
        = findBucket g name ++ [i] := by
  intro g
  induction g with
  | nil => intro h; simp at h
  | cons p g' ih =>
      intro hex
      by_cases hp : p.1 = name
      · simp only [List.map_cons, if_pos hp]
        unfold findBucket
        rw [List.find?_cons_of_pos _ (by simpa using hp), List.find?_cons_of_pos _ (by simpa using hp)]
      · simp only [List.map_cons, if_neg hp]
        unfold findBucket
        rw [List.find?_cons_of_neg _ (by simpa using hp), List.find?_cons_of_neg _ (by simpa using hp)]
        apply ih
        simp only [List.any_cons] at hex
        simpa [hp] using hex

theorem findBucket_addInst (g : List (PyStr × List Inst)) (name : PyStr) (i : Inst)
    (k : PyStr) :
    findBucket (addInst g name i) k
      = if k = name then findBucket g k ++ [i] else findBucket g k := by
  unfold addInst
  by_cases hex : (g.any (fun p => decide (p.1 = name))) = true
  · rw [if_pos hex]
    by_cases hk : k = name
    · subst hk
      rw [if_pos rfl]
      exact findBucket_map_update_eq k i g hex
    · rw [if_neg hk]
      exact findBucket_map_update_ne name i k hk g
  · rw [if_neg hex]
    by_cases hk : k = name
    · subst hk
      rw [if_pos rfl]
      have hnone : g.find? (fun p => decide (p.1 = k)) = none := by
        rw [List.find?_eq_none]
        intro x hx
        simp only [decide_eq_true_eq]
        intro e
        exact hex (List.any_eq_true.mpr ⟨x, hx, by simp [e]⟩)
      unfold findBucket
      rw [hnone]
      rw [List.find?_append, hnone]
      simp [List.find?]
    · rw [if_neg hk]
      unfold findBucket
      rw [List.find?_append]
      have hnone2 : [(name, [i])].find? (fun p => decide (p.1 = k)) = none := by
        rw [List.find?_eq_none]
        intro x hx
        simp only [List.mem_singleton] at hx
        subst hx
        simp only [decide_eq_true_eq]
        exact fun e => hk e.symm
      rw [hnone2]
      cases g.find? (fun p => decide (p.1 = k)) <;> rfl

theorem findBucket_foldl (l : List Inst) :
    ∀ (g : List (PyStr × List Inst)) (k : PyStr),
      findBucket (l.foldl (fun g i => addInst g (rowIdea i.row) i) g) k
        = findBucket g k ++ l.filter (fun i => decide (rowIdea i.row = k)) := by
  induction l with
  | nil => intro g k; simp
  | cons i t ih =>
      intro g k
      rw [List.foldl_cons, ih (addInst g (rowIdea i.row) i) k, findBucket_addInst]
      by_cases hk : k = rowIdea i.row
      · rw [if_pos hk]
        rw [List.filter_cons_of_pos (by simp [hk.symm])]
        simp
      · rw [if_neg hk]
        rw [List.filter_cons_of_neg (by simp; exact fun e => hk e.symm)]

theorem findBucket_ideaGroupsOf (d : List (PyStr × List Row)) (k : PyStr) :
    findBucket (ideaGroupsOf d) k
      = (truthyInsts d).filter (fun i => decide (rowIdea i.row = k)) := by
  unfold ideaGroupsOf
  rw [findBucket_foldl]
  rfl

theorem keys_addInst (g : List (PyStr × List Inst)) (name : PyStr) (i : Inst) :
    (addInst g name i).map Prod.fst
      = if (g.any (fun p => decide (p.1 = name))) = true then g.map Prod.fst
        else g.map Prod.fst ++ [name] := by
  unfold addInst
  split
  case isTrue h =>
    rw [List.map_map]
    apply List.map_congr_left
    intro p _
    by_cases hp : p.1 = name
    · simp [hp]
    · simp [hp]
  case isFalse h => simp

theorem keys_nodup_foldl (l : List Inst) :
    ∀ g : List (PyStr × List Inst), (g.map Prod.fst).Nodup →
      ((l.foldl (fun g i => addInst g (rowIdea i.row) i) g).map Prod.fst).Nodup := by
  induction l with
  | nil => intro g h; exact h
  | cons i t ih =>
      intro g h
      rw [List.foldl_cons]
      apply ih
      rw [keys_addInst]
      split
      · exact h
      case isFalse hex =>
        have hnm : rowIdea i.row ∉ g.map Prod.fst := by
          intro hm
          rcases List.mem_map.mp hm with ⟨p, hp, he⟩
          exact hex (List.any_eq_true.mpr ⟨p, hp, by simp [he]⟩)
        rw [List.nodup_append]
        exact ⟨h, List.nodup_singleton _, by
          intro a ha hb
          rw [List.mem_singleton] at hb
          subst hb
          exact hnm ha⟩

theorem keys_mono_addInst {k : PyStr} {g : List (PyStr × List Inst)} (name : PyStr)
    (i : Inst) (h : k ∈ g.map Prod.fst) : k ∈ (addInst g name i).map Prod.fst := by
  rw [keys_addInst]
  split
  · exact h
  · exact List.mem_append_left _ h

theorem keys_addInst_self (g : List (PyStr × List Inst)) (name : PyStr) (i : Inst) :
    name ∈ (addInst g name i).map Prod.fst := by
  rw [keys_addInst]
  split
  case isTrue h =>
    rcases List.any_eq_true.mp h with ⟨p, hp, he⟩
    simp only [decide_eq_true_eq] at he
    exact List.mem_map.mpr ⟨p, hp, he⟩
  case isFalse h => exact List.mem_append_right _ (List.mem_singleton_self _)

theorem keys_mono_foldl (l : List Inst) :
    ∀ (g : List (PyStr × List Inst)) (k : PyStr), k ∈ g.map Prod.fst →
      k ∈ (l.foldl (fun g i => addInst g (rowIdea i.row) i) g).map Prod.fst := by
  induction l with
  | nil => intro g k h; exact h
  | cons i t ih =>
      intro g k h
      rw [List.foldl_cons]
      exact ih _ k (keys_mono_addInst _ _ h)

theorem keys_mem_foldl (l : List Inst) :
    ∀ (g : List (PyStr × List Inst)) (x : Inst), x ∈ l →
      rowIdea x.row ∈ (l.foldl (fun g i => addInst g (rowIdea i.row) i) g).map Prod.fst := by
  induction l with
  | nil => intro g x h; cases h
  | cons i t ih =>
      intro g x h
      rw [List.foldl_cons]
      rcases List.mem_cons.mp h with rfl | h
      · exact keys_mono_foldl t _ _ (keys_addInst_self g _ x)
      · exact ih _ x h

theorem ideaNamesOf_nodup (d : List (PyStr × List Row)) : (ideaNamesOf d).Nodup :=
  keys_nodup_foldl (truthyInsts d) [] List.nodup_nil

theorem flatMap_filter_perm (keys : List PyStr) :
    ∀ l : List Inst, keys.Nodup → (∀ x ∈ l, rowIdea x.row ∈ keys) →
      (keys.flatMap (fun k => l.filter (fun i => decide (rowIdea i.row = k)))).Perm l := by
  induction keys with
  | nil =>
      intro l _ hcov
      cases l with
      | nil => exact List.Perm.refl _
      | cons i t => exact absurd (hcov i (List.mem_cons_self i t)) (List.not_mem_nil _)
  | cons k kt ih =>
      intro l hnd hcov
      rw [List.nodup_cons] at hnd
      rw [List.flatMap_cons]
      have hrw : ∀ k' ∈ kt,
          l.filter (fun i => decide (rowIdea i.row = k'))
            = (l.filter (fun i => !decide (rowIdea i.row = k))).filter
                (fun i => decide (rowIdea i.row = k')) := by
        intro k' hk'
        rw [List.filter_filter]
        apply List.filter_congr
        intro x _
        by_cases hx : rowIdea x.row = k'
        · have hkk : ¬ k' = k := fun e => hnd.1 (e ▸ hk')
          simp [hx, hkk]
        · simp [hx]
      have hflat : kt.flatMap (fun k' => l.filter (fun i => decide (rowIdea i.row = k')))
          = kt.flatMap (fun k' => (l.filter (fun i => !decide (rowIdea i.row = k))).filter
              (fun i => decide (rowIdea i.row = k'))) := List.flatMap_congr hrw
      rw [hflat]
      have hcov2 : ∀ x ∈ l.filter (fun i => !decide (rowIdea i.row = k)),
          rowIdea x.row ∈ kt := by
        intro x hx
        have hxl := List.mem_of_mem_filter hx
        have hprop := List.of_mem_filter hx
        simp only [Bool.not_eq_true', decide_eq_false_iff_not] at hprop
        rcases List.mem_cons.mp (hcov x hxl) with h | h
        · exact absurd h hprop
        · exact h
      have IH := ih (l.filter (fun i => !decide (rowIdea i.row = k))) hnd.2 hcov2
      exact (IH.append_left _).trans (List.filter_append_perm _ l)

theorem seedGroups_flatten_perm : ∀ names : List PyStr,
    ((seedGroups names).flatten).Perm names
  | [] => by simp [seedGroups]
  | seed :: rest => by
      rw [seedGroups, List.flatten_cons, List.cons_append]
      have IH := seedGroups_flatten_perm (rest.filter (fun m => !are_ideas_similar seed m))
      exact ((IH.append_left _).trans (List.filter_append_perm _ rest)).cons seed
termination_by names => names.length
decreasing_by
  simp only [List.length_cons]
  exact Nat.lt_succ_of_le (List.length_filter_le _ _)

theorem groupsOf_flatten_perm (d : List (PyStr × List Row)) :
    ((groupsOf d).flatten).Perm (ideaNamesOf d) := by
  unfold groupsOf
  have h := outerScan_eq_seedGroups (ideaNamesOf d) [] (ideaNamesOf_nodup d)
  rw [List.filter_eq_self.mpr (fun a _ => by simp)] at h
  rw [h]
  exact seedGroups_flatten_perm _

theorem flatten_map_flatMap (G : List (List PyStr)) (f : PyStr → List Inst) :
    (G.map (fun g => g.flatMap f)).flatten = (G.flatten).flatMap f := by
  induction G with
  | nil => rfl
  | cons g G' ih =>
      rw [List.map_cons, List.flatten_cons, List.flatten_cons, List.flatMap_append, ih]

/-! ## Claim C2: partition of the input rows -/

/-- C2 counterexample: a loaded row whose `Idea` field is absent belongs to
no Aggregate Record's member set: consolidating a one-row input yields zero
records, so the total input row count (1) differs from the sum of member
counts (0), refuting the claim for all rows of all loaded files. -/
theorem C2_counterexample :
    consolidate_ideas [("f.csv".toList, [⟨none, none, none, none, none, none⟩])] = some []
    ∧ ([("f.csv".toList, [(⟨none, none, none, none, none, none⟩ : Row)])].flatMap
        Prod.snd).length = 1
    ∧ ((groupsOf [("f.csv".toList, [⟨none, none, none, none, none, none⟩])]).map
        (fun g => (allInstances
          (ideaGroupsOf [("f.csv".toList, [⟨none, none, none, none, none, none⟩])]) g).length)).sum
      = 0 := by
  refine ⟨by decide, by decide, by decide⟩

/-- C2 amended: the partition holds for the rows that carry a non-empty
`Idea` field (the rows the first pass collects): the concatenation of the
member lists of all similarity groups is a permutation of the list of those
rows — each such row belongs to exactly one group — and the total count of
such rows equals the sum of the groups' member counts. Rows with an absent
or empty `Idea` are dropped by the first pass and belong to no group. -/
theorem groups_instances_perm (d : List (PyStr × List Row)) :
    (((groupsOf d).map (fun g => allInstances (ideaGroupsOf d) g)).flatten).Perm
      (truthyInsts d) := by
  unfold allInstances
  rw [flatten_map_flatMap]
  have h1 := List.Perm.flatMap_right (findBucket (ideaGroupsOf d)) (groupsOf_flatten_perm d)
  have h2 : (ideaNamesOf d).flatMap (findBucket (ideaGroupsOf d))
      = (ideaNamesOf d).flatMap
          (fun k => (truthyInsts d).filter (fun i => decide (rowIdea i.row = k))) :=
    List.flatMap_congr (fun k _ => findBucket_ideaGroupsOf d k)
  have h3 := flatMap_filter_perm (ideaNamesOf d) (truthyInsts d) (ideaNamesOf_nodup d)
    (fun x hx => keys_mem_foldl (truthyInsts d) [] x hx)
  rw [h2] at h1
  exact h1.trans h3

theorem C2_partition (d : List (PyStr × List Row)) :
    (((groupsOf d).map (fun g => allInstances (ideaGroupsOf d) g)).flatten).Perm
        (truthyInsts d) ∧
    ((groupsOf d).map (fun g => (allInstances (ideaGroupsOf d) g).length)).sum
      = (truthyInsts d).length := by
  refine ⟨groups_instances_perm d, ?_⟩
  have hlen := (groups_instances_perm d).length_eq
  rw [List.length_flatten, List.map_map] at hlen
  simpa [Function.comp] using hlen

/-! ## Claim C10: distinct canonical names, no overwrite -/

theorem outerScan_ne_nil (names : List PyStr) :
    ∀ (P : List PyStr) (g : List PyStr), g ∈ outerScan names P → g ≠ [] := by
  induction names with
  | nil => intro P g h; cases h
  | cons n rest ih =>
      intro P g h
      unfold outerScan at h
      split at h
      · exact ih P g h
      · rcases List.mem_cons.mp h with rfl | h
        · exact List.cons_ne_nil _ _
        · exact ih _ g h

theorem pyMinName_mem (g : List PyStr) (hg : g ≠ []) : pyMinName g ∈ g := by
  cases g with
  | nil => exact absurd rfl hg
  | cons a t =>
      show t.foldl (fun cur m => if keyLtB m cur then m else cur) a ∈ a :: t
      rcases (pyMin_fold_spec t a).1 with h | h
      · rw [h]
        exact List.mem_cons_self a t
      · exact List.mem_cons_of_mem a h

theorem choice_map_nodup (c : List PyStr → PyStr) :
    ∀ G : List (List PyStr), (G.flatten).Nodup → (∀ g ∈ G, c g ∈ g) →
      (G.map c).Nodup := by
  intro G
  induction G with
  | nil => intro _ _; exact List.nodup_nil
  | cons g G' ih =>
      intro hnd hc
      rw [List.flatten_cons, List.nodup_append] at hnd
      rw [List.map_cons, List.nodup_cons]
      constructor
      · intro hm
        rcases List.mem_map.mp hm with ⟨g', hg', he⟩
        have h1 : c g' ∈ G'.flatten :=
          List.mem_flatten.mpr ⟨g', hg', hc g' (List.mem_cons_of_mem _ hg')⟩
        exact hnd.2.2 (hc g (List.mem_cons_self _ _)) (he ▸ h1)
      · exact ih hnd.2.1 (fun g' hg' => hc g' (List.mem_cons_of_mem _ hg'))

theorem groupsOf_flatten_nodup (d : List (PyStr × List Row)) :
    ((groupsOf d).flatten).Nodup :=
  ((groupsOf_flatten_perm d).nodup_iff).mpr (ideaNamesOf_nodup d)

theorem canonicals_nodup (d : List (PyStr × List Row)) :
    ((groupsOf d).map pyMinName).Nodup :=
  choice_map_nodup pyMinName (groupsOf d) (groupsOf_flatten_nodup d)
    (fun g hg => pyMinName_mem g (outerScan_ne_nil _ _ g hg))

theorem dictSet_fresh (acc : List (PyStr × Record)) (k : PyStr) (r : Record)
    (h : ∀ q ∈ acc, q.1 ≠ k) : dictSet acc k r = acc ++ [(k, r)] := by
  unfold dictSet
  rw [if_neg]
  intro hany
  rcases List.any_eq_true.mp hany with ⟨q, hq, he⟩
  simp only [decide_eq_true_eq] at he
  exact h q hq he

theorem consolidateGo_keys (groups : List (PyStr × List Inst)) :
    ∀ (gs : List (List PyStr)) (acc m : List (PyStr × Record)),
      (∀ k ∈ gs.map pyMinName, ∀ q ∈ acc, q.1 ≠ k) →
      (gs.map pyMinName).Nodup →
      consolidateGo groups gs acc = some m →
      m.map Prod.fst = acc.map Prod.fst ++ gs.map pyMinName := by
  intro gs
  induction gs with
  | nil =>
      intro acc m _ _ h
      have : acc = m := by
        simpa [consolidateGo] using h
      rw [← this]
      simp
  | cons g gs' ih =>
      intro acc m hdisj hnd hgo
      unfold consolidateGo at hgo
      cases hmg : mergeGroup groups g with
      | none => rw [hmg] at hgo; cases hgo
      | some r =>
          rw [hmg] at hgo
          dsimp only at hgo
          rw [List.map_cons, List.nodup_cons] at hnd
          have hfresh : ∀ q ∈ acc, q.1 ≠ pyMinName g :=
            fun q hq => hdisj (pyMinName g) (by simp) q hq
          rw [dictSet_fresh acc _ r hfresh] at hgo
          have hdisj2 : ∀ k ∈ gs'.map pyMinName, ∀ q ∈ acc ++ [(pyMinName g, r)], q.1 ≠ k := by
            intro k hk q hq
            rcases List.mem_append.mp hq with hq | hq
            · exact hdisj k (by simp [hk]) q hq
            · rw [List.mem_singleton] at hq
              subst hq
              intro e
              have e2 : pyMinName g = k := e
              exact hnd.1 (e2 ▸ hk)
          have := ih (acc ++ [(pyMinName g, r)]) m hdisj2 hnd.2 hgo
          rw [this]
          simp

theorem consolidateGo_acc_sub (groups : List (PyStr × List Inst)) :
    ∀ (gs : List (List PyStr)) (acc m : List (PyStr × Record)),
      (∀ k ∈ gs.map pyMinName, ∀ q ∈ acc, q.1 ≠ k) →
      (gs.map pyMinName).Nodup →
      consolidateGo groups gs acc = some m →
      ∀ q ∈ acc, q ∈ m := by
  intro gs
  induction gs with
  | nil =>
      intro acc m _ _ h q hq
      have : acc = m := by simpa [consolidateGo] using h
      exact this ▸ hq
  | cons g gs' ih =>
      intro acc m hdisj hnd hgo q hq
      unfold consolidateGo at hgo
      cases hmg : mergeGroup groups g with
      | none => rw [hmg] at hgo; cases hgo
      | some r =>
          rw [hmg] at hgo
          dsimp only at hgo
          rw [List.map_cons, List.nodup_cons] at hnd
          have hfresh : ∀ q ∈ acc, q.1 ≠ pyMinName g :=
            fun q hq => hdisj (pyMinName g) (by simp) q hq
          rw [dictSet_fresh acc _ r hfresh] at hgo
          have hdisj2 : ∀ k ∈ gs'.map pyMinName, ∀ p ∈ acc ++ [(pyMinName g, r)], p.1 ≠ k := by
            intro k hk p hp
            rcases List.mem_append.mp hp with hp | hp
            · exact hdisj k (by simp [hk]) p hp
            · rw [List.mem_singleton] at hp
              subst hp
              intro e
              have e2 : pyMinName g = k := e
              exact hnd.1 (e2 ▸ hk)
          exact ih _ m hdisj2 hnd.2 hgo q (List.mem_append_left _ hq)

theorem consolidateGo_mem (groups : List (PyStr × List Inst)) :
    ∀ (gs : List (List PyStr)) (acc m : List (PyStr × Record)),
      (∀ k ∈ gs.map pyMinName, ∀ q ∈ acc, q.1 ≠ k) →
      (gs.map pyMinName).Nodup →
      consolidateGo groups gs acc = some m →
      ∀ g ∈ gs, ∃ r, mergeGroup groups g = some r ∧ (pyMinName g, r) ∈ m := by
  intro gs
  induction gs with
  | nil => intro acc m _ _ _ g hg; cases hg
  | cons g0 gs' ih =>
      intro acc m hdisj hnd hgo g hg
      unfold consolidateGo at hgo
      cases hmg : mergeGroup groups g0 with
      | none => rw [hmg] at hgo; cases hgo
      | some r0 =>
          rw [hmg] at hgo
          dsimp only at hgo
          rw [List.map_cons, List.nodup_cons] at hnd
          have hfresh : ∀ q ∈ acc, q.1 ≠ pyMinName g0 :=
            fun q hq => hdisj (pyMinName g0) (by simp) q hq
          rw [dictSet_fresh acc _ r0 hfresh] at hgo
          have hdisj2 : ∀ k ∈ gs'.map pyMinName, ∀ p ∈ acc ++ [(pyMinName g0, r0)], p.1 ≠ k := by
            intro k hk p hp
            rcases List.mem_append.mp hp with hp | hp
            · exact hdisj k (by simp [hk]) p hp
            · rw [List.mem_singleton] at hp
              subst hp
              intro e
              have e2 : pyMinName g0 = k := e
              exact hnd.1 (e2 ▸ hk)
          rcases List.mem_cons.mp hg with rfl | hg
          · refine ⟨r0, hmg, ?_⟩
            exact consolidateGo_acc_sub groups gs' _ m hdisj2 hnd.2 hgo
              (pyMinName g, r0) (List.mem_append_right _ (List.mem_singleton_self _))
          · exact ih _ m hdisj2 hnd.2 hgo g hg

/-- C10: for every input on which consolidation returns, each similarity
group's canonical name is a member of that group, the groups' name sets are
pairwise disjoint, the canonical names of distinct groups are distinct, and
the consolidated dict holds exactly one record per group under its canonical
name, in group-discovery order — no record overwrites another. -/
theorem C10_distinct_canonicals (d : List (PyStr × List Row))
    (m : List (PyStr × Record)) (h : consolidate_ideas d = some m) :
    (∀ g ∈ groupsOf d, pyMinName g ∈ g) ∧
    List.Pairwise List.Disjoint (groupsOf d) ∧
    ((groupsOf d).map pyMinName).Nodup ∧
    m.map Prod.fst = (groupsOf d).map pyMinName := by
  refine ⟨fun g hg => pyMinName_mem g (outerScan_ne_nil _ _ g hg), ?_, canonicals_nodup d, ?_⟩
  · exact (List.nodup_flatten.mp (groupsOf_flatten_nodup d)).2
  · have := consolidateGo_keys (ideaGroupsOf d) (groupsOf d) [] m
      (fun k _ q hq => absurd hq (List.not_mem_nil q)) (canonicals_nodup d) h
    simpa using this

/-- Witness for C10: on a concrete two-idea input ("aa" and "zzzz", which are
dissimilar), the consolidated dict's keys are exactly the canonical names of
the two groups. -/
theorem C10_witness :
    (consolidate_ideas [("f.csv".toList,
        [⟨some "aa".toList, none, none, none, none, none⟩,
         ⟨some "zzzz".toList, none, none, none, none, none⟩])]).map
          (List.map Prod.fst)
      = some ((groupsOf [("f.csv".toList,
          [⟨some "aa".toList, none, none, none, none, none⟩,
           ⟨some "zzzz".toList, none, none, none, none, none⟩])]).map pyMinName) := by
  cases hm : consolidate_ideas [("f.csv".toList,
      [⟨some "aa".toList, none, none, none, none, none⟩,
       ⟨some "zzzz".toList, none, none, none, none, none⟩])] with
  | none => exact absurd hm (by decide)
  | some m =>
      show some (m.map Prod.fst) = _
      exact congrArg some (C10_distinct_canonicals _ m hm).2.2.2

/-! ## Claim C3: score parsing and the unparsable-score exception -/

theorem parseScores_eq_mapM (insts : List Inst) :
    parseScores insts
      = (insts.filter (fun i => truthy i.row.score)).mapM
          (fun i => pyFloat (i.row.score.getD [])) := by
  induction insts with
  | nil => rfl
  | cons i rest ih =>
      unfold parseScores
      by_cases ht : truthy i.row.score = true
      · rw [if_pos ht]
        simp only [List.filter_cons]
        rw [ht, if_pos rfl, List.mapM_cons]
        cases hp : pyFloat (i.row.score.getD []) with
        | none => rfl
        | some q =>
            rw [ih]
            cases (rest.filter (fun i => truthy i.row.score)).mapM
                (fun i => pyFloat (i.row.score.getD [])) with
            | none => rfl
            | some l => rfl
      · rw [if_neg ht]
        simp only [List.filter_cons]
        rw [Bool.not_eq_true] at ht
        rw [ht, if_neg Bool.false_ne_true]
        exact ih

theorem parseScores_none_iff (insts : List Inst) :
    parseScores insts = none
      ↔ ∃ i ∈ insts, truthy i.row.score = true ∧ pyFloat (i.row.score.getD []) = none := by
  induction insts with
  | nil => simp [parseScores]
  | cons i rest ih =>
      unfold parseScores
      by_cases ht : truthy i.row.score = true
      · rw [if_pos ht]
        cases hp : pyFloat (i.row.score.getD []) with
        | none =>
            simp only [true_iff]
            exact ⟨i, List.mem_cons_self _ _, ht, hp⟩
        | some q =>
            constructor
            · intro hmap
              have : parseScores rest = none := by
                cases hps : parseScores rest with
                | none => rfl
                | some l => rw [hps] at hmap; cases hmap
              rcases ih.mp this with ⟨j, hj, hjt, hjp⟩
              exact ⟨j, List.mem_cons_of_mem _ hj, hjt, hjp⟩
            · rintro ⟨j, hj, hjt, hjp⟩
              rcases List.mem_cons.mp hj with rfl | hj
              · rw [hp] at hjp; cases hjp
              · have := ih.mpr ⟨j, hj, hjt, hjp⟩
                rw [this]
                rfl
      · rw [if_neg ht]
        rw [ih]
        constructor
        · rintro ⟨j, hj, hjt, hjp⟩
          exact ⟨j, List.mem_cons_of_mem _ hj, hjt, hjp⟩
        · rintro ⟨j, hj, hjt, hjp⟩
          rcases List.mem_cons.mp hj with rfl | hj
          · exact absurd hjt ht
          · exact ⟨j, hj, hjt, hjp⟩

theorem mergeGroup_none_iff (groups : List (PyStr × List Inst)) (g : List PyStr) :
    mergeGroup groups g = none ↔ parseScores (allInstances groups g) = none := by
  simp only [mergeGroup]
  cases h : parseScores (allInstances groups g) with
  | none => simp
  | some scores => simp

theorem consolidateGo_none_iff (groups : List (PyStr × List Inst)) :
    ∀ (gs : List (List PyStr)) (acc : List (PyStr × Record)),
      consolidateGo groups gs acc = none ↔ ∃ g ∈ gs, mergeGroup groups g = none := by
  intro gs
  induction gs with
  | nil => intro acc; simp [consolidateGo]
  | cons g0 gs' ih =>
      intro acc
      unfold consolidateGo
      cases hmg : mergeGroup groups g0 with
      | none =>
          simp only [true_iff]
          exact ⟨g0, List.mem_cons_self _ _, hmg⟩
      | some r =>
          dsimp only
          rw [ih]
          constructor
          · rintro ⟨g, hg, hmge⟩
            exact ⟨g, List.mem_cons_of_mem _ hg, hmge⟩
          · rintro ⟨g, hg, hmge⟩
            rcases List.mem_cons.mp hg with rfl | hg
            · rw [hmg] at hmge; cases hmge
            · exact ⟨g, hg, hmge⟩

/-- C3 counterexample: a row whose `Score` field is present but unparsable
(`"abc"`) makes `consolidate_ideas` raise (modelled `none`): consolidation
does not return normally, refuting "skipped without aborting the run". -/
theorem C3_counterexample :
    consolidate_ideas
        [("f.csv".toList, [⟨some "A".toList, some "abc".toList, none, none, none, none⟩])]
      = none := by decide

/-- C3 amended: consolidation parses exactly the member rows whose `Score`
field is present and non-empty (the truthiness filter), but a present,
unparsable score is not skipped: the `ValueError` from `float()` aborts the
whole consolidation, which raises exactly when some row with a truthy
`Score` has an unparsable value. -/
theorem C3_unparsable_score_aborts (d : List (PyStr × List Row)) :
    (∀ insts : List Inst,
      parseScores insts
        = (insts.filter (fun i => truthy i.row.score)).mapM
            (fun i => pyFloat (i.row.score.getD []))) ∧
    (consolidate_ideas d = none
      ↔ ∃ i ∈ truthyInsts d, truthy i.row.score = true
          ∧ pyFloat (i.row.score.getD []) = none) := by
  refine ⟨parseScores_eq_mapM, ?_⟩
  unfold consolidate_ideas
  rw [consolidateGo_none_iff]
  constructor
  · rintro ⟨g, hg, hmge⟩
    rcases (parseScores_none_iff _).mp ((mergeGroup_none_iff _ g).mp hmge)
      with ⟨i, hi, hit, hip⟩
    have hif : i ∈ ((groupsOf d).map (fun g => allInstances (ideaGroupsOf d) g)).flatten :=
      List.mem_flatten.mpr ⟨allInstances (ideaGroupsOf d) g, List.mem_map_of_mem _ hg, hi⟩
    exact ⟨i, (groups_instances_perm d).mem_iff.mp hif, hit, hip⟩
  · rintro ⟨i, hi, hit, hip⟩
    have hif : i ∈ ((groupsOf d).map (fun g => allInstances (ideaGroupsOf d) g)).flatten :=
      (groups_instances_perm d).mem_iff.mpr hi
    rcases List.mem_flatten.mp hif with ⟨L, hL, hiL⟩
    rcases List.mem_map.mp hL with ⟨g, hg, rfl⟩
    refine ⟨g, hg, (mergeGroup_none_iff _ g).mpr ?_⟩
    exact (parseScores_none_iff _).mpr ⟨i, hiL, hit, hip⟩

/-! ## Claim C4: score aggregation (fraction-to-rational bridges) -/

theorem floor_div_int (n d : ℤ) (hd : 0 < d) :
    ⌊(n : ℚ) / (d : ℚ)⌋ = Int.fdiv n d := by
  rw [Int.fdiv_eq_ediv _ (le_of_lt hd)]
  have hdn : d = ((d.toNat : ℕ) : ℤ) := (Int.toNat_of_nonneg (le_of_lt hd)).symm
  rw [hdn]
  push_cast
  exact_mod_cast Rat.floor_intCast_div_natCast n d.toNat

theorem rheFrac_eq (n d : ℤ) (hd : 0 < d) :
    rheFrac n d = rhe ((n : ℚ) / (d : ℚ)) := by
  have hd' : (0 : ℚ) < (d : ℚ) := by exact_mod_cast hd
  have hfl : ⌊(n : ℚ) / (d : ℚ)⌋ = Int.fdiv n d := floor_div_int n d hd
  have hsub : (n : ℚ) / (d : ℚ) - ((Int.fdiv n d : ℤ) : ℚ)
      = ((n - Int.fdiv n d * d : ℤ) : ℚ) / (d : ℚ) := by
    field_simp
    ring
  have hc1 : ((n : ℚ) / (d : ℚ) - ((Int.fdiv n d : ℤ) : ℚ) < 1 / 2)
      ↔ (2 * (n - Int.fdiv n d * d) < d) := by
    rw [hsub, div_lt_div_iff₀ hd' (by norm_num : (0 : ℚ) < 2)]
    constructor
    · intro h
      have h2 : ((2 * (n - Int.fdiv n d * d) : ℤ) : ℚ) < ((d : ℤ) : ℚ) := by
        push_cast
        push_cast at h
        linarith
      exact_mod_cast h2
    · intro h
      have h2 : ((2 * (n - Int.fdiv n d * d) : ℤ) : ℚ) < ((d : ℤ) : ℚ) := by exact_mod_cast h
      push_cast at h2
      push_cast
      linarith
  have hc2 : (1 / 2 < (n : ℚ) / (d : ℚ) - ((Int.fdiv n d : ℤ) : ℚ))
      ↔ (d < 2 * (n - Int.fdiv n d * d)) := by
    rw [hsub, div_lt_div_iff₀ (by norm_num : (0 : ℚ) < 2) hd']
    constructor
    · intro h
      have h2 : ((d : ℤ) : ℚ) < ((2 * (n - Int.fdiv n d * d) : ℤ) : ℚ) := by
        push_cast
        push_cast at h
        linarith
      exact_mod_cast h2
    · intro h
      have h2 : ((d : ℤ) : ℚ) < ((2 * (n - Int.fdiv n d * d) : ℤ) : ℚ) := by exact_mod_cast h
      push_cast at h2
      push_cast
      linarith
  unfold rhe rheFrac
  rw [hfl]
  simp only [hc1, hc2]

theorem Frac.add_toQ {a b : Frac} (ha : a.den ≠ 0) (hb : b.den ≠ 0) :
    (a.add b).toQ = a.toQ + b.toQ := by
  unfold Frac.add Frac.toQ
  have ha' : ((a.den : ℤ) : ℚ) ≠ 0 := by exact_mod_cast ha
  have hb' : ((b.den : ℤ) : ℚ) ≠ 0 := by exact_mod_cast hb
  field_simp

theorem Frac.add_den_pos {a b : Frac} (ha : 0 < a.den) (hb : 0 < b.den) :
    0 < (a.add b).den := mul_pos ha hb

theorem foldl_add_toQ (scores : List Frac) :
    ∀ z : Frac, 0 < z.den → (∀ f ∈ scores, 0 < f.den) →
      (scores.foldl Frac.add z).toQ = z.toQ + ((scores.map Frac.toQ).sum) ∧
      0 < (scores.foldl Frac.add z).den := by
  induction scores with
  | nil => intro z hz _; exact ⟨by simp, hz⟩
  | cons f t ih =>
      intro z hz hall
      rw [List.foldl_cons]
      have hf : 0 < f.den := hall f (List.mem_cons_self _ _)
      have hzf : 0 < (z.add f).den := Frac.add_den_pos hz hf
      have := ih (z.add f) hzf (fun x hx => hall x (List.mem_cons_of_mem _ hx))
      refine ⟨?_, this.2⟩
      rw [this.1, Frac.add_toQ (ne_of_gt hz) (ne_of_gt hf)]
      simp [add_assoc]

theorem Frac.divNat_toQ {a : Frac} {n : ℕ} (ha : a.den ≠ 0) (hn : n ≠ 0) :
    (a.divNat n).toQ = a.toQ / (n : ℚ) := by
  unfold Frac.divNat Frac.toQ
  have ha' : ((a.den : ℤ) : ℚ) ≠ 0 := by exact_mod_cast ha
  have hn' : ((n : ℕ) : ℚ) ≠ 0 := by exact_mod_cast hn
  field_simp

theorem parseUnsigned_den_pos (t : PyStr) (f : Frac) (h : parseUnsigned t = some f) :
    0 < f.den := by
  simp only [parseUnsigned] at h
  split at h
  · cases h
  · split at h
    · injection h with h
      subst h
      exact pow_pos (by norm_num) _
    · split at h
      · cases h
      · split at h
        · injection h with h
          subst h
          exact mul_pos (pow_pos (by norm_num) _) (pow_pos (by norm_num) _)
        · injection h with h
          subst h
          exact pow_pos (by norm_num) _
    · split at h
      · cases h
      · split at h
        · injection h with h
          subst h
          exact mul_pos (pow_pos (by norm_num) _) (pow_pos (by norm_num) _)
        · injection h with h
          subst h
          exact pow_pos (by norm_num) _
    · cases h

theorem pyFloat_den_pos (s : PyStr) (f : Frac) (h : pyFloat s = some f) : 0 < f.den := by
  simp only [pyFloat] at h
  cases hu : parseUnsigned (parseSign (pyStrip s)).2 with
  | none => rw [hu] at h; cases h
  | some g =>
      rw [hu] at h
      have hg := parseUnsigned_den_pos _ g hu
      dsimp only [Option.map] at h
      split at h <;> injection h with h <;> subst h
      · exact hg
      · exact hg

theorem parseScores_den_pos (insts : List Inst) :
    ∀ scores : List Frac, parseScores insts = some scores → ∀ f ∈ scores, 0 < f.den := by
  induction insts with
  | nil =>
      intro scores h f hf
      have : scores = [] := by simpa [parseScores] using h.symm
      subst this
      cases hf
  | cons i rest ih =>
      intro scores h f hf
      unfold parseScores at h
      split at h
      · cases hp : pyFloat (i.row.score.getD []) with
        | none => rw [hp] at h; cases h
        | some q =>
            rw [hp] at h
            cases hps : parseScores rest with
            | none => rw [hps] at h; cases h
            | some l =>
                rw [hps] at h
                simp only [Option.map_some] at h
                injection h with h
                subst h
                rcases List.mem_cons.mp hf with rfl | hf
                · exact pyFloat_den_pos _ f hp
                · exact ih l hps f hf
      · exact ih scores h f hf

/-- C4: for every similarity group of a run on which consolidation returns,
the group's Aggregate Record carries as `Score` the arithmetic mean of the
parsed member scores rounded to one decimal (round-half-even, as Python
`round` does on exact values), and the int `0` when no member row has a
parsable score. -/
theorem C4_score_mean (d : List (PyStr × List Row)) (m : List (PyStr × Record))
    (h : consolidate_ideas d = some m) :
    ∀ g ∈ groupsOf d, ∃ r scores,
      mergeGroup (ideaGroupsOf d) g = some r ∧
      (pyMinName g, r) ∈ m ∧
      parseScores (allInstances (ideaGroupsOf d) g) = some scores ∧
      r.scoreF.toQ = (if scores = [] then 0
        else pyRound1 (((scores.map Frac.toQ).sum) / (scores.length : ℚ))) := by
  intro g hg
  rcases consolidateGo_mem (ideaGroupsOf d) (groupsOf d) [] m
      (fun k _ q hq => absurd hq (List.not_mem_nil q)) (canonicals_nodup d) h g hg
    with ⟨r, hmg, hmem⟩
  have hmg0 := hmg
  simp only [mergeGroup] at hmg
  cases hps : parseScores (allInstances (ideaGroupsOf d) g) with
  | none => rw [hps] at hmg; cases hmg
  | some scores =>
      rw [hps] at hmg
      dsimp only at hmg
      injection hmg with hmg
      refine ⟨r, scores, hmg0, hmem, rfl, ?_⟩
      have hscore : r.scoreF = (if scores.isEmpty = true then PyScore.intg 0
          else PyScore.tenths (pyRound1F
            (if scores.isEmpty = true then ⟨0, 1⟩
             else Frac.divNat (scores.foldl Frac.add ⟨0, 1⟩) scores.length))) := by
        rw [← hmg]
      by_cases he : scores = []
      · subst he
        rw [if_pos rfl]
        rw [hscore]
        rfl
      · have he2 : scores.isEmpty = false := by
          cases scores with
          | nil => exact absurd rfl he
          | cons a t => rfl
        rw [if_neg he, hscore, he2]
        simp only [Bool.false_eq_true, if_false]
        have hdens : ∀ f ∈ scores, 0 < f.den :=
          parseScores_den_pos (allInstances (ideaGroupsOf d) g) scores hps
        have hsum := foldl_add_toQ scores ⟨0, 1⟩ (by norm_num) hdens
        have hlen : scores.length ≠ 0 := fun hc => he (List.length_eq_zero.mp hc)
        have havgQ : (Frac.divNat (scores.foldl Frac.add ⟨0, 1⟩) scores.length).toQ
            = ((scores.map Frac.toQ).sum) / (scores.length : ℚ) := by
          rw [Frac.divNat_toQ (ne_of_gt hsum.2) hlen, hsum.1]
          norm_num [Frac.toQ]
        have hdpos : 0 < (Frac.divNat (scores.foldl Frac.add ⟨0, 1⟩) scores.length).den := by
          unfold Frac.divNat
          exact mul_pos hsum.2 (by exact_mod_cast Nat.pos_of_ne_zero hlen)
        show ((pyRound1F (Frac.divNat (scores.foldl Frac.add ⟨0, 1⟩) scores.length) : ℤ) : ℚ) / 10
            = pyRound1 (((scores.map Frac.toQ).sum) / (scores.length : ℚ))
        rw [← havgQ]
        unfold pyRound1F pyRound1
        rw [rheFrac_eq _ _ hdpos]
        congr 2
        unfold Frac.toQ
        push_cast
        have hd0 : ((Frac.divNat (scores.foldl Frac.add ⟨0, 1⟩) scores.length).den : ℚ) ≠ 0 := by
          exact_mod_cast ne_of_gt hdpos
        field_simp
        ring_nf

/-- Witness for C4 at the spec's example: three member rows with scores
8.0, 9.0, 7.0 yield an Aggregate Record whose Score value is 8. -/
theorem C4_witness :
    (consolidate_ideas [("f.csv".toList,
        [⟨some "a".toList, some "8.0".toList, none, none, none, none⟩,
         ⟨some "a".toList, some "9.0".toList, none, none, none, none⟩,
         ⟨some "a".toList, some "7.0".toList, none, none, none, none⟩])]).isSome = true ∧
    ((mergeGroup (ideaGroupsOf [("f.csv".toList,
        [⟨some "a".toList, some "8.0".toList, none, none, none, none⟩,
         ⟨some "a".toList, some "9.0".toList, none, none, none, none⟩,
         ⟨some "a".toList, some "7.0".toList, none, none, none, none⟩])])
        ["a".toList]).map (fun r => r.scoreF.toQ)) = some 8 := by
  cases hm : consolidate_ideas [("f.csv".toList,
      [⟨some "a".toList, some "8.0".toList, none, none, none, none⟩,
       ⟨some "a".toList, some "9.0".toList, none, none, none, none⟩,
       ⟨some "a".toList, some "7.0".toList, none, none, none, none⟩])] with
  | none => exact absurd hm (by decide)
  | some m =>
      refine ⟨rfl, ?_⟩
      have hg : ["a".toList] ∈ groupsOf [("f.csv".toList,
          [⟨some "a".toList, some "8.0".toList, none, none, none, none⟩,
           ⟨some "a".toList, some "9.0".toList, none, none, none, none⟩,
           ⟨some "a".toList, some "7.0".toList, none, none, none, none⟩])] := by decide
      rcases C4_score_mean _ m hm ["a".toList] hg with ⟨r, scores, hmg, _, hps, hsc⟩
      rw [hmg]
      show some r.scoreF.toQ = some 8
      have hps2 : parseScores (allInstances (ideaGroupsOf [("f.csv".toList,
          [⟨some "a".toList, some "8.0".toList, none, none, none, none⟩,
           ⟨some "a".toList, some "9.0".toList, none, none, none, none⟩,
           ⟨some "a".toList, some "7.0".toList, none, none, none, none⟩])])
          ["a".toList]) = some [⟨80, 10⟩, ⟨90, 10⟩, ⟨70, 10⟩] := by decide
      rw [hps] at hps2
      injection hps2 with he
      subst he
      rw [hsc]
      rw [if_neg (by decide)]
      have harg : (([(⟨80, 10⟩ : Frac), ⟨90, 10⟩, ⟨70, 10⟩].map Frac.toQ).sum)
          / (([(⟨80, 10⟩ : Frac), ⟨90, 10⟩, ⟨70, 10⟩].length : ℕ) : ℚ) = 8 := by
        norm_num [Frac.toQ]
      rw [harg]
      have h80 : (8 : ℚ) * 10 = ((80 : ℤ) : ℚ) := by norm_num
      rw [pyRound1, h80]
      norm_num [rhe, Int.floor_intCast]

/-! ## Claim C9: csv write/read round-trip -/

theorem parseCsvGo_uq_scan (f : PyStr) :
    ∀ (rest fld : PyStr) (rec : List PyStr) (acc : List (List PyStr)),
      (∀ c ∈ f, ¬c = '\n' ∧ ¬c = ',') →
      parseCsvGo (f ++ rest) CsvState.uq fld rec acc
        = parseCsvGo rest CsvState.uq (f.reverse ++ fld) rec acc := by
  induction f with
  | nil => intro rest fld rec acc _; simp
  | cons c f' ih =>
      intro rest fld rec acc hc
      have h1 := (hc c (List.mem_cons_self _ _)).1
      have h2 := (hc c (List.mem_cons_self _ _)).2
      rw [List.cons_append]
      show parseCsvGo (c :: (f' ++ rest)) CsvState.uq fld rec acc = _
      simp only [parseCsvGo]
      rw [if_neg h1, if_neg h2]
      rw [ih rest (c :: fld) rec acc (fun x hx => hc x (List.mem_cons_of_mem _ hx))]
      rw [List.reverse_cons, List.append_assoc]
      rfl

theorem parseCsvGo_qt_scan (f : PyStr) :
    ∀ (rest fld : PyStr) (rec : List PyStr) (acc : List (List PyStr)),
      parseCsvGo (escQuotes f ++ '"' :: rest) CsvState.qt fld rec acc
        = parseCsvGo rest CsvState.aq (f.reverse ++ fld) rec acc := by
  induction f with
  | nil =>
      intro rest fld rec acc
      rfl
  | cons c f' ih =>
      intro rest fld rec acc
      by_cases hq : c = '"'
      · subst hq
        have hesc : escQuotes ('"' :: f') = '"' :: '"' :: escQuotes f' := by
          simp [escQuotes]
        rw [hesc, List.cons_append, List.cons_append]
        show parseCsvGo (escQuotes f' ++ '"' :: rest) CsvState.qt ('"' :: fld) rec acc = _
        rw [ih rest ('"' :: fld) rec acc]
        rw [List.reverse_cons, List.append_assoc]
        rfl
      · have hesc : escQuotes (c :: f') = c :: escQuotes f' := by
          simp [escQuotes, hq]
        rw [hesc, List.cons_append]
        show parseCsvGo (c :: (escQuotes f' ++ '"' :: rest)) CsvState.qt fld rec acc = _
        simp only [parseCsvGo]
        rw [if_neg hq]
        rw [ih rest (c :: fld) rec acc]
        rw [List.reverse_cons, List.append_assoc]
        rfl

theorem needsQuote_false_mem {f : PyStr} (h : needsQuote f = false) :
    ∀ c ∈ f, ¬c = ',' ∧ ¬c = '"' ∧ ¬c = '\r' ∧ ¬c = '\n' := by
  intro c hc
  unfold needsQuote at h
  rw [List.any_eq_false] at h
  have := h c hc
  simp at this
  tauto

theorem encodeCell_raw {f : PyStr} (h : needsQuote f = false) : encodeCell f = f := by
  unfold encodeCell
  rw [h]
  rfl

theorem encodeCell_quoted {f : PyStr} (h : needsQuote f = true) :
    encodeCell f = '"' :: (escQuotes f ++ ['"']) := by
  unfold encodeCell
  rw [h]
  rfl

theorem step_rs_comma (cs : PyStr) (fld : PyStr) (rec : List PyStr)
    (acc : List (List PyStr)) :
    parseCsvGo (',' :: cs) CsvState.rs fld rec acc
      = parseCsvGo cs CsvState.fs [] [[]] acc := rfl

theorem step_rs_quote (cs : PyStr) (fld : PyStr) (rec : List PyStr)
    (acc : List (List PyStr)) :
    parseCsvGo ('"' :: cs) CsvState.rs fld rec acc
      = parseCsvGo cs CsvState.qt [] [] acc := rfl

theorem step_fs_nl (cs : PyStr) (fld : PyStr) (rec : List PyStr)
    (acc : List (List PyStr)) :
    parseCsvGo ('\n' :: cs) CsvState.fs fld rec acc
      = parseCsvGo cs CsvState.rs [] [] ((([] : PyStr) :: rec).reverse :: acc) := rfl

theorem step_fs_comma (cs : PyStr) (fld : PyStr) (rec : List PyStr)
    (acc : List (List PyStr)) :
    parseCsvGo (',' :: cs) CsvState.fs fld rec acc
      = parseCsvGo cs CsvState.fs [] (([] : PyStr) :: rec) acc := rfl

theorem step_fs_quote (cs : PyStr) (fld : PyStr) (rec : List PyStr)
    (acc : List (List PyStr)) :
    parseCsvGo ('"' :: cs) CsvState.fs fld rec acc
      = parseCsvGo cs CsvState.qt [] rec acc := rfl

theorem step_uq_nl (cs : PyStr) (fld : PyStr) (rec : List PyStr)
    (acc : List (List PyStr)) :
    parseCsvGo ('\n' :: cs) CsvState.uq fld rec acc
      = parseCsvGo cs CsvState.rs [] [] ((fld.reverse :: rec).reverse :: acc) := rfl

theorem step_uq_comma (cs : PyStr) (fld : PyStr) (rec : List PyStr)
    (acc : List (List PyStr)) :
    parseCsvGo (',' :: cs) CsvState.uq fld rec acc
      = parseCsvGo cs CsvState.fs [] (fld.reverse :: rec) acc := rfl

theorem step_aq_nl (cs : PyStr) (fld : PyStr) (rec : List PyStr)
    (acc : List (List PyStr)) :
    parseCsvGo ('\n' :: cs) CsvState.aq fld rec acc
      = parseCsvGo cs CsvState.rs [] [] ((fld.reverse :: rec).reverse :: acc) := rfl

theorem step_aq_comma (cs : PyStr) (fld : PyStr) (rec : List PyStr)
    (acc : List (List PyStr)) :
    parseCsvGo (',' :: cs) CsvState.aq fld rec acc
      = parseCsvGo cs CsvState.fs [] (fld.reverse :: rec) acc := rfl

theorem parseCsvGo_fields (cells : List PyStr) :
    ∀ (rec : List PyStr) (rest : PyStr) (acc : List (List PyStr)),
      cells ≠ [] →
      parseCsvGo (joinSep [','] (cells.map encodeCell) ++ '\n' :: rest) CsvState.fs [] rec acc
        = parseCsvGo rest CsvState.rs [] [] ((rec.reverse ++ cells) :: acc) := by
  induction cells with
  | nil => intro rec rest acc h; exact absurd rfl h
  | cons f cs ih =>
      intro rec rest acc _
      cases cs with
      | nil =>
          show parseCsvGo (encodeCell f ++ '\n' :: rest) CsvState.fs [] rec acc = _
          by_cases hq : needsQuote f = true
          · rw [encodeCell_quoted hq, List.cons_append, List.append_assoc,
              List.singleton_append]
            rw [step_fs_quote, parseCsvGo_qt_scan, step_aq_nl]
            rw [List.append_nil, List.reverse_reverse, List.reverse_cons]
          · rw [Bool.not_eq_true] at hq
            cases f with
            | nil =>
                rw [encodeCell_raw hq, List.nil_append]
                rw [step_fs_nl, List.reverse_cons]
            | cons c f' =>
                have hmem := needsQuote_false_mem hq
                have hc := hmem c (List.mem_cons_self _ _)
                rw [encodeCell_raw hq, List.cons_append]
                show parseCsvGo (c :: (f' ++ '\n' :: rest)) CsvState.fs [] rec acc = _
                simp only [parseCsvGo]
                rw [if_neg hc.2.2.2, if_neg hc.1, if_neg hc.2.1]
                rw [parseCsvGo_uq_scan f' ('\n' :: rest) [c] rec acc
                  (fun x hx => ⟨(hmem x (List.mem_cons_of_mem _ hx)).2.2.2,
                    (hmem x (List.mem_cons_of_mem _ hx)).1⟩)]
                rw [step_uq_nl, List.reverse_append, List.reverse_reverse,
                  List.reverse_singleton, List.singleton_append, List.reverse_cons]
      | cons g cs' =>
          have hsplit : joinSep [','] ((f :: g :: cs').map encodeCell) ++ '\n' :: rest
              = encodeCell f
                  ++ ',' :: (joinSep [','] ((g :: cs').map encodeCell) ++ '\n' :: rest) := by
            show (encodeCell f ++ [','] ++ joinSep [','] ((g :: cs').map encodeCell))
                ++ '\n' :: rest = _
            simp [List.append_assoc]
          rw [hsplit]
          by_cases hq : needsQuote f = true
          · rw [encodeCell_quoted hq, List.cons_append, List.append_assoc,
              List.singleton_append]
            rw [step_fs_quote, parseCsvGo_qt_scan, step_aq_comma]
            rw [List.append_nil, List.reverse_reverse]
            rw [ih (f :: rec) rest acc (List.cons_ne_nil _ _)]
            rw [List.reverse_cons, List.append_assoc, List.singleton_append]
          · rw [Bool.not_eq_true] at hq
            cases f with
            | nil =>
                rw [encodeCell_raw hq, List.nil_append]
                rw [step_fs_comma]
                rw [ih ([] :: rec) rest acc (List.cons_ne_nil _ _)]
                rw [List.reverse_cons, List.append_assoc, List.singleton_append]
            | cons c f' =>
                have hmem := needsQuote_false_mem hq
                have hc := hmem c (List.mem_cons_self _ _)
                rw [encodeCell_raw hq, List.cons_append]
                show parseCsvGo (c :: (f'
                    ++ ',' :: (joinSep [','] ((g :: cs').map encodeCell) ++ '\n' :: rest)))
                    CsvState.fs [] rec acc = _
                simp only [parseCsvGo]
                rw [if_neg hc.2.2.2, if_neg hc.1, if_neg hc.2.1]
                rw [parseCsvGo_uq_scan f' _ [c] rec acc
                  (fun x hx => ⟨(hmem x (List.mem_cons_of_mem _ hx)).2.2.2,
                    (hmem x (List.mem_cons_of_mem _ hx)).1⟩)]
                rw [step_uq_comma, List.reverse_append, List.reverse_reverse,
                  List.reverse_singleton, List.singleton_append]
                rw [ih ((c :: f') :: rec) rest acc (List.cons_ne_nil _ _)]
                rw [List.reverse_cons, List.append_assoc, List.singleton_append]

theorem parseCsvGo_record (cells : List PyStr) (hlen : 2 ≤ cells.length) :
    ∀ (rest : PyStr) (acc : List (List PyStr)),
      parseCsvGo (joinSep [','] (cells.map encodeCell) ++ '\n' :: rest) CsvState.rs [] [] acc
        = parseCsvGo rest CsvState.rs [] [] (cells :: acc) := by
  match cells, hlen with
  | c1 :: c2 :: cs, _ =>
    intro rest acc
    have hsplit : joinSep [','] ((c1 :: c2 :: cs).map encodeCell) ++ '\n' :: rest
        = encodeCell c1
            ++ ',' :: (joinSep [','] ((c2 :: cs).map encodeCell) ++ '\n' :: rest) := by
      show (encodeCell c1 ++ [','] ++ joinSep [','] ((c2 :: cs).map encodeCell))
          ++ '\n' :: rest = _
      simp [List.append_assoc]
    rw [hsplit]
    by_cases hq : needsQuote c1 = true
    · rw [encodeCell_quoted hq, List.cons_append, List.append_assoc,
        List.singleton_append]
      rw [step_rs_quote, parseCsvGo_qt_scan, step_aq_comma]
      rw [List.append_nil, List.reverse_reverse]
      rw [parseCsvGo_fields (c2 :: cs) [c1] rest acc (List.cons_ne_nil _ _)]
      rfl
    · rw [Bool.not_eq_true] at hq
      cases c1 with
      | nil =>
          rw [encodeCell_raw hq, List.nil_append]
          rw [step_rs_comma]
          rw [parseCsvGo_fields (c2 :: cs) [[]] rest acc (List.cons_ne_nil _ _)]
          rfl
      | cons c f' =>
          have hmem := needsQuote_false_mem hq
          have hc := hmem c (List.mem_cons_self _ _)
          rw [encodeCell_raw hq, List.cons_append]
          show parseCsvGo (c :: (f'
              ++ ',' :: (joinSep [','] ((c2 :: cs).map encodeCell) ++ '\n' :: rest)))
              CsvState.rs [] [] acc = _
          simp only [parseCsvGo]
          rw [if_neg hc.2.2.2, if_neg hc.1, if_neg hc.2.1]
          rw [parseCsvGo_uq_scan f' _ [c] [] acc
            (fun x hx => ⟨(hmem x (List.mem_cons_of_mem _ hx)).2.2.2,
              (hmem x (List.mem_cons_of_mem _ hx)).1⟩)]
          rw [step_uq_comma, List.reverse_append, List.reverse_reverse,
            List.reverse_singleton, List.singleton_append]
          rw [parseCsvGo_fields (c2 :: cs) [c :: f'] rest acc (List.cons_ne_nil _ _)]
          rfl

theorem parseCsvGo_rows (rows : List (List PyStr)) :
    ∀ acc, (∀ r ∈ rows, 2 ≤ r.length) →
      parseCsvGo
        ((rows.map (fun cells => joinSep [','] (cells.map encodeCell) ++ ['\n'])).flatten)
        CsvState.rs [] [] acc
      = acc.reverse ++ rows := by
  induction rows with
  | nil => intro acc _; simp [parseCsvGo]
  | cons r rows' ih =>
      intro acc h
      rw [List.map_cons, List.flatten_cons, List.append_assoc, List.singleton_append]
      rw [parseCsvGo_record r (h r (List.mem_cons_self _ _)) _ acc]
      rw [ih (r :: acc) (fun x hx => h x (List.mem_cons_of_mem _ hx))]
      rw [List.reverse_cons, List.append_assoc, List.singleton_append]

theorem univNL_cons_ne {c : Char} (h : ¬c = '\r') (s : PyStr) :
    univNL (c :: s) = c :: univNL s := by
  cases s with
  | nil => simp [univNL, h]
  | cons d t => simp [univNL, h]

theorem univNL_append_ne (s : PyStr) (h : ∀ c ∈ s, ¬c = '\r') (t : PyStr) :
    univNL (s ++ t) = s ++ univNL t := by
  induction s with
  | nil => rfl
  | cons c s' ih =>
      rw [List.cons_append, univNL_cons_ne (h c (List.mem_cons_self _ _)),
        ih (fun x hx => h x (List.mem_cons_of_mem _ hx)), List.cons_append]

theorem univNL_crlf (s : PyStr) : univNL ('\r' :: '\n' :: s) = '\n' :: univNL s := rfl

theorem mem_escQuotes {c : Char} {s : PyStr} (h : c ∈ escQuotes s) : c = '"' ∨ c ∈ s := by
  rcases List.mem_flatMap.mp h with ⟨a, ha, hc⟩
  by_cases hq : a = '"'
  · simp [hq] at hc
    exact Or.inl hc
  · simp [hq] at hc
    exact Or.inr (hc ▸ ha)

theorem mem_encodeCell {c : Char} {s : PyStr} (h : c ∈ encodeCell s) : c = '"' ∨ c ∈ s := by
  unfold encodeCell at h
  by_cases hq : needsQuote s = true
  · rw [if_pos hq] at h
    simp only [List.mem_cons, List.mem_append, List.mem_singleton] at h
    rcases h with h | h | h | h
    · exact Or.inl h
    · exact mem_escQuotes h
    · exact Or.inl h
    · exact absurd h (List.not_mem_nil c)
  · rw [if_neg hq] at h
    exact Or.inr h

theorem mem_joinSep_comma {c : Char} : ∀ {cells : List PyStr},
    c ∈ joinSep [','] cells → c = ',' ∨ ∃ x ∈ cells, c ∈ x
  | [], h => absurd h (List.not_mem_nil c)
  | [x], h => Or.inr ⟨x, List.mem_cons_self _ _, h⟩
  | x :: y :: r, h => by
      have h' : c ∈ x ++ [','] ++ joinSep [','] (y :: r) := h
      simp only [List.mem_append, List.mem_singleton] at h'
      rcases h' with (hx | hc) | hr
      · exact Or.inr ⟨x, List.mem_cons_self _ _, hx⟩
      · exact Or.inl hc
      · rcases mem_joinSep_comma hr with hc | ⟨z, hz, hcz⟩
        · exact Or.inl hc
        · exact Or.inr ⟨z, List.mem_cons_of_mem _ hz, hcz⟩

theorem joinSep_cells_crFree (cells : List PyStr)
    (h : ∀ cell ∈ cells, ∀ c ∈ cell, ¬c = '\r') :
    ∀ c ∈ joinSep [','] (cells.map encodeCell), ¬c = '\r' := by
  intro c hc
  rcases mem_joinSep_comma hc with h1 | ⟨x, hx, hcx⟩
  · subst h1; decide
  · rcases List.mem_map.mp hx with ⟨cell, hcell, rfl⟩
    rcases mem_encodeCell hcx with h1 | h1
    · subst h1; decide
    · exact h cell hcell c h1

theorem univNL_encodeCsv (rows : List (List PyStr))
    (h : ∀ r ∈ rows, ∀ cell ∈ r, ∀ c ∈ cell, ¬c = '\r') :
    univNL (encodeCsv rows)
      = (rows.map (fun cells => joinSep [','] (cells.map encodeCell) ++ ['\n'])).flatten := by
  induction rows with
  | nil => rfl
  | cons r rows' ih =>
      have e1 : encodeCsv (r :: rows') = encodeLine r ++ encodeCsv rows' := by
        simp [encodeCsv]
      rw [e1]
      simp only [encodeLine]
      rw [List.append_assoc]
      show univNL (joinSep [','] (r.map encodeCell) ++ ('\r' :: '\n' :: encodeCsv rows')) = _
      rw [univNL_append_ne _ (joinSep_cells_crFree r (h r (List.mem_cons_self _ _))) _]
      rw [univNL_crlf, ih (fun x hx => h x (List.mem_cons_of_mem _ hx))]
      rw [List.map_cons, List.flatten_cons, List.append_assoc, List.singleton_append]

theorem parseCsv_univNL_encodeCsv (rows : List (List PyStr))
    (hcr : ∀ r ∈ rows, ∀ cell ∈ r, ∀ c ∈ cell, ¬c = '\r')
    (hlen : ∀ r ∈ rows, 2 ≤ r.length) :
    parseCsv (univNL (encodeCsv rows)) = rows := by
  unfold parseCsv
  rw [univNL_encodeCsv rows hcr, parseCsvGo_rows rows [] hlen]
  rfl

theorem digitChar_ne_cr {d : Nat} (h : d < 10) : ¬digitChar d = '\r' := by
  intro he
  have h13 : (digitChar d).toNat = 13 := by rw [he]; rfl
  rw [digitChar, char_toNat_ofNat_valid (48 + d) (by omega)] at h13
  omega

theorem mem_natToStrAux : ∀ (fuel n : Nat), ∀ c ∈ natToStrAux fuel n,
    ∃ d, d < 10 ∧ c = digitChar d
  | 0, _ => by intro c hc; exact absurd hc (List.not_mem_nil c)
  | fuel + 1, n => by
      intro c hc
      by_cases h10 : n < 10
      · have hc' : c ∈ [digitChar n] := by simpa [natToStrAux, h10] using hc
        exact ⟨n, h10, List.mem_singleton.mp hc'⟩
      · have hc' : c ∈ natToStrAux fuel (n / 10) ++ [digitChar (n % 10)] := by
          simpa [natToStrAux, h10] using hc
        rcases List.mem_append.mp hc' with h1 | h1
        · exact mem_natToStrAux fuel (n / 10) c h1
        · exact ⟨n % 10, Nat.mod_lt _ (by omega), List.mem_singleton.mp h1⟩

theorem natToStr_crFree (n : Nat) : ∀ c ∈ natToStr n, ¬c = '\r' := by
  intro c hc
  rcases mem_natToStrAux (n + 1) n c hc with ⟨d, hd, rfl⟩
  exact digitChar_ne_cr hd

theorem mem_fracDigits : ∀ (fuel num den : Nat), num < den →
    ∀ c ∈ fracDigits fuel num den, ∃ d, d < 10 ∧ c = digitChar d
  | 0, _, _ => by intro _ c hc; simp [fracDigits] at hc
  | fuel + 1, 0, _ => by intro _ c hc; simp [fracDigits] at hc
  | fuel + 1, num + 1, den => by
      intro hlt c hc
      have hden : 0 < den := by omega
      have hc' : c = digitChar ((num + 1) * 10 / den)
          ∨ c ∈ fracDigits fuel ((num + 1) * 10 % den) den := by
        simpa [fracDigits] using hc
      rcases hc' with h1 | h1
      · refine ⟨(num + 1) * 10 / den, ?_, h1⟩
        have h2 : (num + 1) * 10 < 10 * den := by omega
        exact (Nat.div_lt_iff_lt_mul hden).mpr h2
      · exact mem_fracDigits fuel _ den (Nat.mod_lt _ hden) c h1

theorem fmtFrac_crFree (f : Frac) (hden : f.den.natAbs ≠ 0) :
    ∀ c ∈ fmtFrac f, ¬c = '\r' := by
  intro c hc
  simp only [fmtFrac] at hc
  rcases List.mem_append.mp hc with h12 | h4
  · rcases List.mem_append.mp h12 with h1 | h3
    · by_cases hs : f.num < 0
      · rw [if_pos hs] at h1
        rw [List.mem_singleton.mp h1]; decide
      · rw [if_neg hs] at h1
        exact absurd h1 (List.not_mem_nil c)
    · exact natToStr_crFree _ c h3
  · rcases List.mem_cons.mp h4 with h5 | h6
    · rw [h5]; decide
    · by_cases hz : f.num.natAbs % f.den.natAbs = 0
      · rw [if_pos hz] at h6
        rw [List.mem_singleton.mp h6]; decide
      · rw [if_neg hz] at h6
        rcases mem_fracDigits 17 _ _ (Nat.mod_lt _ (by omega)) c h6 with ⟨d, hd, rfl⟩
        exact digitChar_ne_cr hd

theorem scoreStr_crFree (s : PyScore) : ∀ c ∈ PyScore.str s, ¬c = '\r' := by
  cases s with
  | intg n =>
      intro c hc
      simp only [PyScore.str, List.mem_append] at hc
      rcases hc with h1 | h1
      · by_cases hs : n < 0
        · rw [if_pos hs] at h1
          rw [List.mem_singleton.mp h1]; decide
        · rw [if_neg hs] at h1
          exact absurd h1 (List.not_mem_nil c)
      · exact natToStr_crFree _ c h1
  | tenths k =>
      intro c hc
      exact fmtFrac_crFree ⟨k, 10⟩ (by show (10 : ℤ).natAbs ≠ 0; decide) c hc

theorem strCrFree_mem {s : PyStr} (h : strCrFree s = true) : ∀ c ∈ s, ¬c = '\r' := by
  intro c hc he
  subst he
  simp [strCrFree] at h
  exact h hc

theorem rowCells_crFree (p : Nat × Record) (h : recCrFree p.2 = true) :
    ∀ cell ∈ rowCells p, ∀ c ∈ cell, ¬c = '\r' := by
  simp only [recCrFree, Bool.and_eq_true] at h
  obtain ⟨⟨⟨⟨hi, hf⟩, hp⟩, hw⟩, hl⟩ := h
  intro cell hcell
  simp only [rowCells, List.mem_cons] at hcell
  rcases hcell with rfl | rfl | rfl | rfl | rfl | rfl | rfl | h0
  · exact natToStr_crFree _
  · exact strCrFree_mem hi
  · exact scoreStr_crFree _
  · exact strCrFree_mem hf
  · exact strCrFree_mem hp
  · exact strCrFree_mem hw
  · exact strCrFree_mem hl
  · exact absurd h0 (List.not_mem_nil cell)

/-- C9: re-reading the written Consolidated Set returns exactly the written
rows: the loader's records associate the seven field names with precisely
the serialized field values of the corresponding Aggregate Records, in
writer order. The hypothesis records that no field value contains a
carriage return, which holds of every value the loader itself can produce
(text mode translates every `\r` away), hence of every Consolidated Set
the program builds. -/
theorem C9_round_trip (vals : List Record) (h : ∀ r ∈ vals, recCrFree r = true) :
    read_csv_rows (univNL (write_consolidated_csv vals))
      = (write_consolidated_rows vals).map (fun p => fieldnames.zip (rowCells p)) := by
  have hcr : ∀ r ∈ fieldnames :: write_consolidated_cells vals,
      ∀ cell ∈ r, ∀ c ∈ cell, ¬c = '\r' := by
    intro r hr
    rcases List.mem_cons.mp hr with rfl | hr
    · decide
    · rcases List.mem_map.mp hr with ⟨p, hp, rfl⟩
      apply rowCells_crFree
      apply h
      exact (sortByScoreDesc_perm vals).mem_iff.mp (List.of_mem_zip hp).2
  have hlen : ∀ r ∈ fieldnames :: write_consolidated_cells vals, 2 ≤ r.length := by
    intro r hr
    rcases List.mem_cons.mp hr with rfl | hr
    · decide
    · rcases List.mem_map.mp hr with ⟨p, hp, rfl⟩
      simp [rowCells]
  have hparse : parseCsv (univNL (write_consolidated_csv vals))
      = fieldnames :: write_consolidated_cells vals := by
    unfold write_consolidated_csv
    exact parseCsv_univNL_encodeCsv _ hcr hlen
  have hread : read_csv_rows (univNL (write_consolidated_csv vals))
      = ((write_consolidated_cells vals).filter (fun r => !r.isEmpty)).map
          (fun r => fieldnames.zip r) := by
    unfold read_csv_rows
    rw [hparse]
  have hfilter : (write_consolidated_cells vals).filter (fun r => !r.isEmpty)
      = write_consolidated_cells vals := by
    apply List.filter_eq_self.mpr
    intro r hr
    rcases List.mem_map.mp hr with ⟨p, hp, rfl⟩
    simp [rowCells]
  rw [hread, hfilter]
  show ((write_consolidated_rows vals).map rowCells).map (fun r => fieldnames.zip r) = _
  rw [List.map_map]
  rfl

/-- Witness for C9 at a concrete one-record Consolidated Set. -/
theorem C9_witness :
    (∀ r ∈ [Record.mk ['a'] (.intg 0) [] [] ['w'] ['s']], recCrFree r = true) ∧
      read_csv_rows (univNL (write_consolidated_csv
          [Record.mk ['a'] (.intg 0) [] [] ['w'] ['s']]))
        = (write_consolidated_rows [Record.mk ['a'] (.intg 0) [] [] ['w'] ['s']]).map
            (fun p => fieldnames.zip (rowCells p)) :=
  ⟨by decide, C9_round_trip [Record.mk ['a'] (.intg 0) [] [] ['w'] ['s']] (by decide)⟩

theorem univNL_no_cr : ∀ (s : PyStr), ∀ c ∈ univNL s, ¬c = '\r'
  | [] => by intro c hc; simp [univNL] at hc
  | [a] => by
      intro c hc
      by_cases ha : a = '\r'
      · simp [univNL, ha] at hc
        subst hc; decide
      · simp [univNL, ha] at hc
        subst hc; exact ha
  | a :: b :: rest => by
      intro c hc
      by_cases ha : a = '\r'
      · by_cases hb : b = '\n'
        · rw [ha, hb, univNL_crlf] at hc
          rcases List.mem_cons.mp hc with rfl | hc2
          · decide
          · exact univNL_no_cr rest c hc2
        · have he : univNL (a :: b :: rest) = '\n' :: univNL (b :: rest) := by
            simp [univNL, ha, hb]
          rw [he] at hc
          rcases List.mem_cons.mp hc with rfl | hc2
          · decide
          · exact univNL_no_cr (b :: rest) c hc2
      · have he : univNL (a :: b :: rest) = a :: univNL (b :: rest) := by
          simp [univNL, ha]
        rw [he] at hc
        rcases List.mem_cons.mp hc with rfl | hc2
        · exact ha
        · exact univNL_no_cr (b :: rest) c hc2

theorem crFree_nilStr : ∀ c ∈ ([] : PyStr), ¬c = '\r' :=
  fun c hc => absurd hc (List.not_mem_nil c)

theorem crFree_nilRec : ∀ f ∈ ([] : List PyStr), ∀ c ∈ f, ¬c = '\r' :=
  fun f hf => absurd hf (List.not_mem_nil f)

theorem crFree_consStr {ch : Char} {fld : PyStr} (h1 : ¬ch = '\r')
    (h2 : ∀ c ∈ fld, ¬c = '\r') : ∀ c ∈ ch :: fld, ¬c = '\r' := by
  intro c hc
  rcases List.mem_cons.mp hc with rfl | hc2
  · exact h1
  · exact h2 c hc2

theorem crFree_revStr {fld : PyStr} (h : ∀ c ∈ fld, ¬c = '\r') :
    ∀ c ∈ fld.reverse, ¬c = '\r' :=
  fun c hc => h c (List.mem_reverse.mp hc)

theorem crFree_consRec {f : PyStr} {rec : List PyStr} (h1 : ∀ c ∈ f, ¬c = '\r')
    (h2 : ∀ g ∈ rec, ∀ c ∈ g, ¬c = '\r') : ∀ g ∈ f :: rec, ∀ c ∈ g, ¬c = '\r' := by
  intro g hg
  rcases List.mem_cons.mp hg with rfl | hg2
  · exact h1
  · exact h2 g hg2

theorem crFree_revRec {rec : List PyStr} (h : ∀ f ∈ rec, ∀ c ∈ f, ¬c = '\r') :
    ∀ f ∈ rec.reverse, ∀ c ∈ f, ¬c = '\r' :=
  fun f hf => h f (List.mem_reverse.mp hf)

theorem crFree_consAcc {r : List PyStr} {acc : List (List PyStr)}
    (h1 : ∀ f ∈ r, ∀ c ∈ f, ¬c = '\r')
    (h2 : ∀ q ∈ acc, ∀ f ∈ q, ∀ c ∈ f, ¬c = '\r') :
    ∀ q ∈ r :: acc, ∀ f ∈ q, ∀ c ∈ f, ¬c = '\r' := by
  intro q hq
  rcases List.mem_cons.mp hq with rfl | hq2
  · exact h1
  · exact h2 q hq2

theorem crFree_flushAcc {fld : PyStr} {rec : List PyStr} {acc : List (List PyStr)}
    (hf : ∀ c ∈ fld, ¬c = '\r') (hr : ∀ f ∈ rec, ∀ c ∈ f, ¬c = '\r')
    (ha : ∀ r ∈ acc, ∀ f ∈ r, ∀ c ∈ f, ¬c = '\r') :
    ∀ r ∈ ((fld.reverse :: rec).reverse :: acc).reverse, ∀ f ∈ r, ∀ c ∈ f, ¬c = '\r' := by
  intro r hmem
  have h2 := List.mem_reverse.mp hmem
  rcases List.mem_cons.mp h2 with rfl | h3
  · exact crFree_revRec (crFree_consRec (crFree_revStr hf) hr)
  · exact ha r h3

theorem parseCsvGo_crFree : ∀ (s : PyStr) (st : CsvState) (fld : PyStr)
    (rec : List PyStr) (acc : List (List PyStr)),
    (∀ c ∈ s, ¬c = '\r') → (∀ c ∈ fld, ¬c = '\r') →
    (∀ f ∈ rec, ∀ c ∈ f, ¬c = '\r') →
    (∀ r ∈ acc, ∀ f ∈ r, ∀ c ∈ f, ¬c = '\r') →
    ∀ r ∈ parseCsvGo s st fld rec acc, ∀ f ∈ r, ∀ c ∈ f, ¬c = '\r'
  | [], st, fld, rec, acc => by
      intro _ hf hr ha
      cases st with
      | rs => exact fun r hmem => ha r (List.mem_reverse.mp hmem)
      | fs => exact crFree_flushAcc hf hr ha
      | uq => exact crFree_flushAcc hf hr ha
      | qt => exact crFree_flushAcc hf hr ha
      | aq => exact crFree_flushAcc hf hr ha
  | ch :: cs, st, fld, rec, acc => by
      intro hs hf hr ha
      have hch : ¬ch = '\r' := hs ch (List.mem_cons_self _ _)
      have hs' : ∀ c ∈ cs, ¬c = '\r' := fun c hc => hs c (List.mem_cons_of_mem _ hc)
      cases st with
      | rs =>
          simp only [parseCsvGo]
          by_cases h1 : ch = '\n'
          · rw [if_pos h1]
            exact parseCsvGo_crFree cs _ _ _ _ hs' crFree_nilStr crFree_nilRec
              (crFree_consAcc crFree_nilRec ha)
          · rw [if_neg h1]
            by_cases h2 : ch = ','
            · rw [if_pos h2]
              exact parseCsvGo_crFree cs _ _ _ _ hs' crFree_nilStr
                (crFree_consRec crFree_nilStr crFree_nilRec) ha
            · rw [if_neg h2]
              by_cases h3 : ch = '"'
              · rw [if_pos h3]
                exact parseCsvGo_crFree cs _ _ _ _ hs' crFree_nilStr crFree_nilRec ha
              · rw [if_neg h3]
                exact parseCsvGo_crFree cs _ _ _ _ hs'
                  (crFree_consStr hch crFree_nilStr) crFree_nilRec ha
      | fs =>
          simp only [parseCsvGo]
          by_cases h1 : ch = '\n'
          · rw [if_pos h1]
            exact parseCsvGo_crFree cs _ _ _ _ hs' crFree_nilStr crFree_nilRec
              (crFree_consAcc (crFree_revRec (crFree_consRec crFree_nilStr hr)) ha)
          · rw [if_neg h1]
            by_cases h2 : ch = ','
            · rw [if_pos h2]
              exact parseCsvGo_crFree cs _ _ _ _ hs' crFree_nilStr
                (crFree_consRec crFree_nilStr hr) ha
            · rw [if_neg h2]
              by_cases h3 : ch = '"'
              · rw [if_pos h3]
                exact parseCsvGo_crFree cs _ _ _ _ hs' crFree_nilStr hr ha
              · rw [if_neg h3]
                exact parseCsvGo_crFree cs _ _ _ _ hs'
                  (crFree_consStr hch crFree_nilStr) hr ha
      | uq =>
          simp only [parseCsvGo]
          by_cases h1 : ch = '\n'
          · rw [if_pos h1]
            exact parseCsvGo_crFree cs _ _ _ _ hs' crFree_nilStr crFree_nilRec
              (crFree_consAcc (crFree_revRec (crFree_consRec (crFree_revStr hf) hr)) ha)
          · rw [if_neg h1]
            by_cases h2 : ch = ','
            · rw [if_pos h2]
              exact parseCsvGo_crFree cs _ _ _ _ hs' crFree_nilStr
                (crFree_consRec (crFree_revStr hf) hr) ha
            · rw [if_neg h2]
              exact parseCsvGo_crFree cs _ _ _ _ hs' (crFree_consStr hch hf) hr ha
      | qt =>
          simp only [parseCsvGo]
          by_cases h1 : ch = '"'
          · rw [if_pos h1]
            exact parseCsvGo_crFree cs _ _ _ _ hs' hf hr ha
          · rw [if_neg h1]
            exact parseCsvGo_crFree cs _ _ _ _ hs' (crFree_consStr hch hf) hr ha
      | aq =>
          simp only [parseCsvGo]
          by_cases h1 : ch = '"'
          · rw [if_pos h1]
            exact parseCsvGo_crFree cs _ _ _ _ hs'
              (crFree_consStr (by decide) hf) hr ha
          · rw [if_neg h1]
            by_cases h2 : ch = ','
            · rw [if_pos h2]
              exact parseCsvGo_crFree cs _ _ _ _ hs' crFree_nilStr
                (crFree_consRec (crFree_revStr hf) hr) ha
            · rw [if_neg h2]
              by_cases h3 : ch = '\n'
              · rw [if_pos h3]
                exact parseCsvGo_crFree cs _ _ _ _ hs' crFree_nilStr crFree_nilRec
                  (crFree_consAcc (crFree_revRec (crFree_consRec (crFree_revStr hf) hr)) ha)
              · rw [if_neg h3]
                exact parseCsvGo_crFree cs _ _ _ _ hs' (crFree_consStr hch hf) hr ha

theorem parseCsv_crFree (s : PyStr) (hs : ∀ c ∈ s, ¬c = '\r') :
    ∀ r ∈ parseCsv s, ∀ f ∈ r, ∀ c ∈ f, ¬c = '\r' :=
  parseCsvGo_crFree s CsvState.rs [] [] [] hs crFree_nilStr crFree_nilRec
    (fun r hr => absurd hr (List.not_mem_nil r))

theorem read_csv_rows_crFree (raw : PyStr) :
    ∀ row ∈ read_csv_rows (univNL raw), ∀ kv ∈ row, strCrFree kv.2 = true := by
  intro row hrow kv hkv
  cases hp : parseCsv (univNL raw) with
  | nil =>
      have he : read_csv_rows (univNL raw) = [] := by
        unfold read_csv_rows
        rw [hp]
      rw [he] at hrow
      exact absurd hrow (List.not_mem_nil row)
  | cons hdr rest =>
      have he : read_csv_rows (univNL raw)
          = (rest.filter (fun r => !r.isEmpty)).map (fun r => hdr.zip r) := by
        unfold read_csv_rows
        rw [hp]
      rw [he] at hrow
      rcases List.mem_map.mp hrow with ⟨r, hrm, rfl⟩
      have hr2 : r ∈ rest := List.mem_of_mem_filter hrm
      have hcells : ∀ f ∈ r, ∀ c ∈ f, ¬c = '\r' :=
        parseCsv_crFree _ (univNL_no_cr raw) r
          (by rw [hp]; exact List.mem_cons_of_mem _ hr2)
      have hv : kv.2 ∈ r := (List.of_mem_zip hkv).2
      have hnot : '\r' ∉ kv.2 := fun hc => hcells kv.2 hv '\r' hc rfl
      simp [strCrFree]
      exact hnot

theorem optCrFree_getD {o : Option PyStr} {dflt : PyStr} (h : optCrFree o = true)
    (hd : ∀ c ∈ dflt, ¬c = '\r') : ∀ c ∈ o.getD dflt, ¬c = '\r' := by
  cases o with
  | none => exact hd
  | some s =>
      intro c hc he
      subst he
      simp [optCrFree] at h
      exact h hc

theorem strCrFree_of {s : PyStr} (h : ∀ c ∈ s, ¬c = '\r') : strCrFree s = true := by
  simp [strCrFree]
  exact fun hc => h '\r' hc rfl

theorem crFree_append {a b : PyStr} (h1 : ∀ c ∈ a, ¬c = '\r')
    (h2 : ∀ c ∈ b, ¬c = '\r') : ∀ c ∈ a ++ b, ¬c = '\r' := by
  intro c hc
  rcases List.mem_append.mp hc with h | h
  · exact h1 c h
  · exact h2 c h

theorem crFree_ite {p : Prop} [Decidable p] {a b : PyStr}
    (h1 : ∀ c ∈ a, ¬c = '\r') (h2 : ∀ c ∈ b, ¬c = '\r') :
    ∀ c ∈ (if p then a else b), ¬c = '\r' := by
  by_cases hp : p
  · rw [if_pos hp]; exact h1
  · rw [if_neg hp]; exact h2

theorem mem_joinSep {c : Char} {sep : PyStr} : ∀ {cells : List PyStr},
    c ∈ joinSep sep cells → c ∈ sep ∨ ∃ x ∈ cells, c ∈ x
  | [], h => absurd h (List.not_mem_nil c)
  | [x], h => Or.inr ⟨x, List.mem_cons_self _ _, h⟩
  | x :: y :: r, h => by
      have h2 : c ∈ x ++ sep ++ joinSep sep (y :: r) := h
      rcases List.mem_append.mp h2 with h3 | h3
      · rcases List.mem_append.mp h3 with h4 | h4
        · exact Or.inr ⟨x, List.mem_cons_self _ _, h4⟩
        · exact Or.inl h4
      · rcases mem_joinSep h3 with h4 | ⟨z, hz, hcz⟩
        · exact Or.inl h4
        · exact Or.inr ⟨z, List.mem_cons_of_mem _ hz, hcz⟩

theorem mem_insStr {x y : PyStr} : ∀ {l : List PyStr}, y ∈ insStr x l → y = x ∨ y ∈ l
  | [], h => Or.inl (List.mem_singleton.mp h)
  | z :: zs, h => by
      by_cases hlt : strLtB x z = true
      · have h2 : y ∈ x :: z :: zs := by simpa [insStr, hlt] using h
        rcases List.mem_cons.mp h2 with rfl | h3
        · exact Or.inl rfl
        · exact Or.inr h3
      · have h2 : y ∈ z :: insStr x zs := by simpa [insStr, hlt] using h
        rcases List.mem_cons.mp h2 with rfl | h3
        · exact Or.inr (List.mem_cons_self _ _)
        · rcases mem_insStr h3 with h4 | h4
          · exact Or.inl h4
          · exact Or.inr (List.mem_cons_of_mem _ h4)

theorem mem_sortedSet_foldr {y : PyStr} : ∀ {l : List PyStr} {acc : List PyStr},
    y ∈ l.foldr insStr acc → y ∈ l ∨ y ∈ acc
  | [], _, h => Or.inr h
  | x :: xs, acc, h => by
      have h2 : y ∈ insStr x (xs.foldr insStr acc) := h
      rcases mem_insStr h2 with rfl | h3
      · exact Or.inl (List.mem_cons_self _ _)
      · rcases mem_sortedSet_foldr h3 with h4 | h4
        · exact Or.inl (List.mem_cons_of_mem _ h4)
        · exact Or.inr h4

theorem mem_sortedSet {y : PyStr} {xs : List PyStr} (h : y ∈ sortedSet xs) : y ∈ xs := by
  rcases mem_sortedSet_foldr h with h1 | h1
  · exact List.mem_dedup.mp h1
  · exact absurd h1 (List.not_mem_nil y)

theorem mem_insFrac {x y : Frac} : ∀ {l : List Frac}, y ∈ insFrac x l → y = x ∨ y ∈ l
  | [], h => Or.inl (List.mem_singleton.mp h)
  | z :: zs, h => by
      by_cases hlt : Frac.leB x z = true
      · have h2 : y ∈ x :: z :: zs := by simpa [insFrac, hlt] using h
        rcases List.mem_cons.mp h2 with rfl | h3
        · exact Or.inl rfl
        · exact Or.inr h3
      · have h2 : y ∈ z :: insFrac x zs := by simpa [insFrac, hlt] using h
        rcases List.mem_cons.mp h2 with rfl | h3
        · exact Or.inr (List.mem_cons_self _ _)
        · rcases mem_insFrac h3 with h4 | h4
          · exact Or.inl h4
          · exact Or.inr (List.mem_cons_of_mem _ h4)

theorem mem_sortFracs_foldr {y : Frac} : ∀ {l : List Frac} {acc : List Frac},
    y ∈ l.foldr insFrac acc → y ∈ l ∨ y ∈ acc
  | [], _, h => Or.inr h
  | x :: xs, acc, h => by
      have h2 : y ∈ insFrac x (xs.foldr insFrac acc) := h
      rcases mem_insFrac h2 with rfl | h3
      · exact Or.inl (List.mem_cons_self _ _)
      · rcases mem_sortFracs_foldr h3 with h4 | h4
        · exact Or.inl (List.mem_cons_of_mem _ h4)
        · exact Or.inr h4

theorem mem_sortFracs {y : Frac} {xs : List Frac} (h : y ∈ sortFracs xs) : y ∈ xs := by
  rcases mem_sortFracs_foldr h with h1 | h1
  · exact h1
  · exact absurd h1 (List.not_mem_nil y)

theorem keys_sub_foldl (l : List Inst) :
    ∀ (g : List (PyStr × List Inst)) (k : PyStr),
      k ∈ (l.foldl (fun g i => addInst g (rowIdea i.row) i) g).map Prod.fst →
      k ∈ g.map Prod.fst ∨ ∃ i ∈ l, rowIdea i.row = k := by
  induction l with
  | nil => intro g k h; exact Or.inl h
  | cons i t ih =>
      intro g k h
      rw [List.foldl_cons] at h
      rcases ih _ k h with h1 | ⟨j, hj, he⟩
      · rw [keys_addInst] at h1
        by_cases hc : (g.any (fun p => decide (p.1 = rowIdea i.row))) = true
        · rw [if_pos hc] at h1
          exact Or.inl h1
        · rw [if_neg hc] at h1
          rcases List.mem_append.mp h1 with h2 | h2
          · exact Or.inl h2
          · exact Or.inr ⟨i, List.mem_cons_self _ _, (List.mem_singleton.mp h2).symm⟩
      · exact Or.inr ⟨j, List.mem_cons_of_mem _ hj, he⟩

theorem truthyInsts_row {d : List (PyStr × List Row)} {i : Inst}
    (h : i ∈ truthyInsts d) : ∃ f ∈ d, i.row ∈ f.2 := by
  rcases List.mem_flatMap.mp h with ⟨f, hf, hi⟩
  rcases List.mem_map.mp hi with ⟨r, hr, rfl⟩
  exact ⟨f, hf, List.mem_of_mem_filter hr⟩

theorem inst_row_crFree {d : List (PyStr × List Row)}
    (hd : ∀ f ∈ d, ∀ r ∈ f.2, rowCrFree r = true)
    {i : Inst} (h : i ∈ truthyInsts d) : rowCrFree i.row = true := by
  rcases truthyInsts_row h with ⟨f, hf, hr⟩
  exact hd f hf i.row hr

theorem allInstances_sub {d : List (PyStr × List Row)} {g : List PyStr} {i : Inst}
    (h : i ∈ allInstances (ideaGroupsOf d) g) : i ∈ truthyInsts d := by
  rcases List.mem_flatMap.mp h with ⟨name, _, hi⟩
  rw [findBucket_ideaGroupsOf] at hi
  exact List.mem_of_mem_filter hi

theorem rowCrFree_fields {r : Row} (h : rowCrFree r = true) :
    optCrFree r.idea = true ∧ optCrFree r.score = true ∧ optCrFree r.freeVP = true
      ∧ optCrFree r.paidVP = true ∧ optCrFree r.why = true ∧ optCrFree r.llm = true := by
  simp only [rowCrFree, Bool.and_eq_true] at h
  exact ⟨h.1.1.1.1.1, h.1.1.1.1.2, h.1.1.1.2, h.1.1.2, h.1.2, h.2⟩

theorem ideaNames_crFree (d : List (PyStr × List Row))
    (hd : ∀ f ∈ d, ∀ r ∈ f.2, rowCrFree r = true) :
    ∀ k ∈ ideaNamesOf d, ∀ c ∈ k, ¬c = '\r' := by
  intro k hk
  rcases keys_sub_foldl (truthyInsts d) [] k hk with h1 | ⟨i, hi, rfl⟩
  · exact absurd h1 (List.not_mem_nil k)
  · exact optCrFree_getD (rowCrFree_fields (inst_row_crFree hd hi)).1 crFree_nilStr

theorem groupsOf_names_crFree (d : List (PyStr × List Row))
    (hd : ∀ f ∈ d, ∀ r ∈ f.2, rowCrFree r = true) :
    ∀ g ∈ groupsOf d, ∀ name ∈ g, ∀ c ∈ name, ¬c = '\r' := by
  intro g hg name hn
  have h1 : name ∈ (groupsOf d).flatten := List.mem_flatten.mpr ⟨g, hg, hn⟩
  exact ideaNames_crFree d hd name ((groupsOf_flatten_perm d).mem_iff.mp h1)

theorem whyEntry_crFree {d : List (PyStr × List Row)}
    (hd : ∀ f ∈ d, ∀ r ∈ f.2, rowCrFree r = true)
    {i : Inst} (hi : i ∈ truthyInsts d) : ∀ c ∈ whyEntry i, ¬c = '\r' := by
  have hrow := rowCrFree_fields (inst_row_crFree hd hi)
  unfold whyEntry
  refine crFree_append (crFree_append (crFree_append ?_ ?_) ?_) ?_
  · exact optCrFree_getD hrow.2.2.2.2.2 (by decide)
  · decide
  · exact optCrFree_getD hrow.2.1 (by decide)
  · exact crFree_consStr (by decide) (optCrFree_getD hrow.2.2.2.2.1 crFree_nilStr)

theorem mergeGroup_crFree (d : List (PyStr × List Row))
    (hd : ∀ f ∈ d, ∀ r ∈ f.2, rowCrFree r = true)
    (g : List PyStr) (hg : ∀ name ∈ g, ∀ c ∈ name, ¬c = '\r')
    (rec : Record) (h : mergeGroup (ideaGroupsOf d) g = some rec) :
    recCrFree rec = true := by
  have hinst : ∀ i ∈ allInstances (ideaGroupsOf d) g, rowCrFree i.row = true :=
    fun i hi => inst_row_crFree hd (allInstances_sub hi)
  have hidea : ∀ c ∈ pyMinName g, ¬c = '\r' := by
    cases g with
    | nil => exact crFree_nilStr
    | cons x xs => exact hg _ (pyMinName_mem _ (List.cons_ne_nil _ _))
  have hsep : ∀ c ∈ " | ".toList, ¬c = '\r' := by decide
  have hcomma : ∀ c ∈ ", ".toList, ¬c = '\r' := by decide
  have hdashes : ∀ c ∈ "\n---\n".toList, ¬c = '\r' := by decide
  simp only [mergeGroup] at h
  cases hps : parseScores (allInstances (ideaGroupsOf d) g) with
  | none => rw [hps] at h; exact absurd h (by simp)
  | some scores =>
      rw [hps] at h
      have he := Option.some.inj h
      subst he
      have hden : ∀ f ∈ scores, 0 < f.den := parseScores_den_pos _ scores hps
      simp only [recCrFree]
      rw [Bool.and_eq_true, Bool.and_eq_true, Bool.and_eq_true, Bool.and_eq_true]
      refine ⟨⟨⟨⟨?_, ?_⟩, ?_⟩, ?_⟩, ?_⟩
      · exact strCrFree_of hidea
      · apply strCrFree_of
        intro c hc
        rcases mem_joinSep hc with h1 | ⟨x, hx, hcx⟩
        · exact hsep c h1
        · rcases List.mem_map.mp (mem_sortedSet hx) with ⟨i, hi, rfl⟩
          exact optCrFree_getD
            (rowCrFree_fields (hinst i (List.mem_of_mem_filter hi))).2.2.1
            crFree_nilStr c (mem_pyStrip hcx)
      · apply strCrFree_of
        intro c hc
        rcases mem_joinSep hc with h1 | ⟨x, hx, hcx⟩
        · exact hsep c h1
        · rcases List.mem_map.mp (mem_sortedSet hx) with ⟨i, hi, rfl⟩
          exact optCrFree_getD
            (rowCrFree_fields (hinst i (List.mem_of_mem_filter hi))).2.2.2.1
            crFree_nilStr c (mem_pyStrip hcx)
      · apply strCrFree_of
        refine crFree_append (crFree_append (crFree_append ?_ ?_) ?_) ?_
        · exact natToStr_crFree _
        · decide
        · refine crFree_ite ?_ crFree_nilStr
          refine crFree_append (by decide) ?_
          exact fmtFrac_crFree _ (by show (10 : ℤ).natAbs ≠ 0; decide)
        · refine crFree_consStr (by decide) (crFree_append ?_ ?_)
          · refine crFree_ite ?_ crFree_nilStr
            refine crFree_append (crFree_append (by decide) ?_) (by decide)
            intro c hc
            rcases mem_joinSep hc with h1 | ⟨x, hx, hcx⟩
            · exact hcomma c h1
            · rcases List.mem_map.mp hx with ⟨q, hq, rfl⟩
              refine fmtFrac_crFree q ?_ c hcx
              have h2 := hden q (mem_sortFracs hq)
              omega
          · intro c hc
            rcases mem_joinSep hc with h1 | ⟨x, hx, hcx⟩
            · exact hdashes c h1
            · rcases List.mem_map.mp hx with ⟨i, hi, rfl⟩
              exact whyEntry_crFree hd
                (allInstances_sub (List.mem_of_mem_filter hi)) c hcx
      · apply strCrFree_of
        refine crFree_append (by decide) ?_
        intro c hc
        rcases mem_joinSep hc with h1 | ⟨x, hx, hcx⟩
        · exact hcomma c h1
        · rcases List.mem_map.mp (mem_sortedSet hx) with ⟨i, hi, rfl⟩
          exact optCrFree_getD
            (rowCrFree_fields (hinst i (List.mem_of_mem_filter hi))).2.2.2.2.2
            crFree_nilStr c hcx

theorem dictSet_values {acc : List (PyStr × Record)} {k : PyStr} {r : Record}
    {kv : PyStr × Record} (h : kv ∈ dictSet acc k r) : kv.2 = r ∨ kv ∈ acc := by
  unfold dictSet at h
  split at h
  · rcases List.mem_map.mp h with ⟨p, hp, he⟩
    by_cases hpk : p.1 = k
    · rw [if_pos hpk] at he
      left
      rw [← he]
    · rw [if_neg hpk] at he
      right
      rw [← he]
      exact hp
  · rcases List.mem_append.mp h with h1 | h1
    · exact Or.inr h1
    · left
      rw [List.mem_singleton.mp h1]

theorem consolidateGo_crFree (groups : List (PyStr × List Inst)) :
    ∀ (gs : List (List PyStr)) (acc : List (PyStr × Record)) (m : List (PyStr × Record)),
      (∀ g ∈ gs, ∀ rec, mergeGroup groups g = some rec → recCrFree rec = true) →
      (∀ kv ∈ acc, recCrFree kv.2 = true) →
      consolidateGo groups gs acc = some m →
      ∀ kv ∈ m, recCrFree kv.2 = true := by
  intro gs
  induction gs with
  | nil =>
      intro acc m _ hacc hm
      have he : acc = m := by simpa [consolidateGo] using hm
      subst he
      exact hacc
  | cons g gs' ih =>
      intro acc m hgs hacc hm
      simp only [consolidateGo] at hm
      cases hmg : mergeGroup groups g with
      | none => rw [hmg] at hm; exact absurd hm (by simp)
      | some r =>
          rw [hmg] at hm
          refine ih _ m (fun g2 hg2 => hgs g2 (List.mem_cons_of_mem _ hg2)) ?_ hm
          intro kv hkv
          rcases dictSet_values hkv with h1 | h1
          · rw [h1]
            exact hgs g (List.mem_cons_self _ _) r hmg
          · exact hacc kv h1

/-- Every Aggregate Record a successful consolidation of carriage-return-free
input rows produces has carriage-return-free field values; together with
`read_csv_rows_crFree` this discharges the hypothesis of `C9_round_trip`
for every Consolidated Set the program can actually build. -/
theorem consolidate_ideas_crFree (d : List (PyStr × List Row))
    (hd : ∀ f ∈ d, ∀ r ∈ f.2, rowCrFree r = true)
    (m : List (PyStr × Record)) (hm : consolidate_ideas d = some m) :
    ∀ kv ∈ m, recCrFree kv.2 = true := by
  refine consolidateGo_crFree (ideaGroupsOf d) (groupsOf d) [] m ?_ ?_ hm
  · intro g hg rec hrec
    exact mergeGroup_crFree d hd g (groupsOf_names_crFree d hd g hg) rec hrec
  · intro kv hkv
    exact absurd hkv (List.not_mem_nil kv)
